import Mathlib

/-!
Shallow embedding of `extract.py`, a single-file batch extractor that parses
donation-transaction lines out of PDF page text, detects an optional GN book
label per line, optionally enriches records with account numbers from a CSV
lookup table, and deduplicates rows before export.

Modelling conventions:
* strings are `List Char`; Python character classes (`\s`, `\d`, `\w`) are
  modelled over their ASCII parts;
* the two regexes `LINE_PATTERN` and `GN_PATTERN` are embedded as executable
  matchers that reproduce Python's leftmost search, greedy/lazy preference
  order and backtracking for these specific patterns;
* `float()` applied to the `\d+\.\d{2}` amount strings is modelled as the
  exact rational value of the decimal literal;
* pandas dataframes are association lists of named columns with optional
  (NaN-able) cells, and a raised `KeyError` is an `Except.error`.
-/

abbrev Chars := List Char

/-- Python whitespace class `\s` (ASCII part): space, tab, newline, carriage
return, vertical tab, form feed. -/
def isPySpace (c : Char) : Bool :=
  c.toNat == 32 || c.toNat == 9 || c.toNat == 10 || c.toNat == 13 ||
    c.toNat == 11 || c.toNat == 12

/-- Python word-character class `\w` (ASCII part), used by `\b`. -/
def isWordChar (c : Char) : Bool := c.isAlphanum || c == '_'

/-- Python `str.strip()`: remove leading and trailing whitespace. -/
def pyStrip (s : Chars) : Chars :=
  ((s.dropWhile isPySpace).reverse.dropWhile isPySpace).reverse

/-- `re.sub(r"\s+", " ", line)`: collapse every whitespace run to one space.
The boolean records whether the previous character was whitespace. -/
def collapseWs : Bool → Chars → Chars
  | _, [] => []
  | prevSp, c :: cs =>
    if isPySpace c then
      if prevSp then collapseWs true cs else ' ' :: collapseWs true cs
    else c :: collapseWs false cs

/-- per-line whitespace normalization `re.sub(r"\s+", " ", line).strip()`. -/
def pyNormalize (s : Chars) : Chars := pyStrip (collapseWs false s)

/-- Python `str.split()` with no argument: whitespace-delimited tokens,
empty tokens discarded. -/
def pySplit : Chars → List Chars
  | [] => []
  | c :: cs =>
    if isPySpace c then pySplit cs
    else
      match cs with
      | [] => [[c]]
      | d :: _ =>
        if isPySpace d then [c] :: pySplit cs
        else
          match pySplit cs with
          | t :: ts => (c :: t) :: ts
          | [] => [[c]]

/-- join tokens with single spaces (used to state the round-trip claims). -/
def joinTok : List Chars → Chars
  | [] => []
  | [t] => t
  | t :: ts => t ++ ' ' :: joinTok ts

/-- numeric value of a digit string. -/
def digitsVal (s : Chars) : Nat := s.foldl (fun a c => 10 * a + (c.toNat - 48)) 0

/-- Python `float()` on the `\d+\.\d{2}` amount strings matched by
`LINE_PATTERN`, modelled as the exact rational value of the literal. -/
def parseAmount (s : Chars) : ℚ :=
  ((digitsVal (s.takeWhile fun c => !(c == '.')) * 100 +
      digitsVal ((s.dropWhile fun c => !(c == '.')).drop 1) : Nat) : ℚ) / 100

/-- `normalize_name_for_lookup` from extract.py: uppercase, strip, split on
whitespace; with at least two tokens the key is first initial + space + last
token, otherwise the uppercased stripped name unchanged. -/
def normalize_name_for_lookup (name : Chars) : Chars :=
  match pySplit (pyStrip (name.map Char.toUpper)) with
  | p0 :: p1 :: rest => p0.take 1 ++ ' ' :: ((p0 :: p1 :: rest).getLastD [])
  | _ => pyStrip (name.map Char.toUpper)

/-! GN_PATTERN = `\bGN\s*[- ]?(?P<gn>[1-7])\b` with IGNORECASE. -/

/-- the digit class `[1-7]` of GN_PATTERN. -/
def digit17 (c : Char) : Bool := decide ('1' ≤ c) && decide (c ≤ '7')

/-- the word boundary `\b` after the captured digit (a digit is a word
character, so the next character must not be one). -/
def boundaryAfter : Chars → Bool
  | [] => true
  | c :: _ => !(isWordChar c)

/-- the branch of GN_PATTERN taking the optional `[- ]` separator. -/
def gnSepDigit : Chars → Option Char
  | c :: d :: rs =>
    if (c == '-' || c == ' ') && digit17 d && boundaryAfter rs then some d else none
  | _ => none

/-- the branch of GN_PATTERN with the optional separator absent. -/
def gnNoSep : Chars → Option Char
  | d :: rs => if digit17 d && boundaryAfter rs then some d else none
  | [] => none

/-- attempt at one fixed `\s*` length: the one-character `[- ]?` branch is
preferred over the empty one. -/
def gnAt (r : Chars) : Option Char := (gnSepDigit r).orElse fun _ => gnNoSep r

/-- greedy `\s*`: the longest whitespace run is tried first, backtracking to
shorter ones. -/
def gnTryW (rest : Chars) : Nat → Option Char
  | 0 => gnAt rest
  | w + 1 =>
    match gnAt (rest.drop (w + 1)) with
    | some d => some d
    | none => gnTryW rest w

/-- attempt of GN_PATTERN at the current position: case-insensitive `GN`,
then `\s*[- ]?([1-7])\b` with regex preference order. -/
def gnHere : Chars → Option Char
  | g :: n :: rest =>
    if (g == 'G' || g == 'g') && (n == 'N' || n == 'n') then
      gnTryW rest (rest.takeWhile isPySpace).length
    else none
  | _ => none

/-- the scan of `GN_PATTERN.search`: positions are tried left to right; the
boolean says whether the previous character was a word character (for the
leading `\b`). -/
def gnSearch : Bool → Chars → Option Chars
  | _, [] => none
  | b, c :: cs =>
    match (if b then none else gnHere (c :: cs)) with
    | some d => some ['G', 'N', d]
    | none => gnSearch (isWordChar c) cs

/-- `detect_gn_label_on_page` from extract.py: return the canonical
`GN{digit}` for the leftmost GN_PATTERN match, or `none`. -/
def detect_gn_label_on_page (text : Chars) : Option Chars := gnSearch false text

/-! LINE_PATTERN =
`(?P<Seq>\d{13})\s+(?P<Name>.*?)\s+(?P<CheckNumber>\d{1,10})\s+`
`(?P<PaymentType>Check|Cash|Card|ACH)\s+(?P<Amount>\d+(?:\.\d{2}))\s+`
`(?P<BatchNumber>\d+)`. -/

/-- the captured groups of one LINE_PATTERN match. -/
structure LineMatch where
  seqG : Chars
  nameG : Chars
  checkG : Chars
  payG : Chars
  amountG : Chars
  batchG : Chars
deriving DecidableEq

/-- the alternation `Check|Cash|Card|ACH`, tried in order; no two branches
match at the same position, so no cross-branch backtracking arises. -/
def matchPayType (s : Chars) : Option (Chars × Chars) :=
  if s.take 5 = "Check".toList then some ("Check".toList, s.drop 5)
  else if s.take 4 = "Cash".toList then some ("Cash".toList, s.drop 4)
  else if s.take 4 = "Card".toList then some ("Card".toList, s.drop 4)
  else if s.take 3 = "ACH".toList then some ("ACH".toList, s.drop 3)
  else none

/-- the part of LINE_PATTERN after the non-greedy name:
`\s+\d{1,10}\s+(Check|Cash|Card|ACH)\s+\d+\.\d{2}\s+\d+`.
Greedy pieces before a mandatory non-matching character reduce to maximal
runs: `\d{1,10}` must take a whole digit run of length at most 10 followed
by whitespace, `\d+` before `\.` must take a whole run followed by `.`,
and the final `\d+` takes a maximal run. -/
def matchTail (s : Chars) : Option (Chars × Chars × Chars × Chars × Chars) :=
  if (s.takeWhile isPySpace).isEmpty then none
  else
    let s1 := s.dropWhile isPySpace
    let ck := s1.takeWhile Char.isDigit
    if ck.isEmpty || decide (ck.length > 10) then none
    else
      let s2 := s1.dropWhile Char.isDigit
      if (s2.takeWhile isPySpace).isEmpty then none
      else
        let s3 := s2.dropWhile isPySpace
        match matchPayType s3 with
        | none => none
        | some (pt, s4) =>
          if (s4.takeWhile isPySpace).isEmpty then none
          else
            let s5 := s4.dropWhile isPySpace
            let ip := s5.takeWhile Char.isDigit
            if ip.isEmpty then none
            else
              match s5.dropWhile Char.isDigit with
              | '.' :: d1 :: d2 :: s6 =>
                if d1.isDigit && d2.isDigit then
                  if (s6.takeWhile isPySpace).isEmpty then none
                  else
                    let s7 := s6.dropWhile isPySpace
                    let bt := s7.takeWhile Char.isDigit
                    if bt.isEmpty then none
                    else some (ck, pt, ip ++ '.' :: [d1, d2], bt, s7.drop bt.length)
                else none
              | _ => none

/-- the non-greedy `(?P<Name>.*?)`: the shortest name whose tail matches
wins; `.` does not match a newline. `acc` holds the name read so far,
reversed. -/
def tryName : Chars → Chars → Option (LineMatch × Chars)
  | acc, [] =>
    (matchTail []).map fun (ck, pt, amt, bt, rest) =>
      (⟨[], acc.reverse, ck, pt, amt, bt⟩, rest)
  | acc, c :: cs =>
    match matchTail (c :: cs) with
    | some (ck, pt, amt, bt, rest) => some (⟨[], acc.reverse, ck, pt, amt, bt⟩, rest)
    | none => if c == '\n' then none else tryName (c :: acc) cs

/-- attempt of the full LINE_PATTERN at the start of `s`: `\d{13}` then
`\s+` then the lazy name search. -/
def matchAt (s : Chars) : Option (LineMatch × Chars) :=
  let seq := s.take 13
  if decide (seq.length = 13) && seq.all Char.isDigit then
    if ((s.drop 13).takeWhile isPySpace).isEmpty then none
    else
      (tryName [] ((s.drop 13).dropWhile isPySpace)).map fun p =>
        ({ p.1 with seqG := seq }, p.2)
  else none

/-- `LINE_PATTERN.finditer`: leftmost, non-overlapping matches.  Every step
consumes at least one character, so `s.length` is enough fuel. -/
def finditerAux : Nat → Chars → List LineMatch
  | 0, _ => []
  | _ + 1, [] => []
  | f + 1, c :: cs =>
    match matchAt (c :: cs) with
    | some (m, rest) => m :: finditerAux f rest
    | none => finditerAux f cs

/-- all LINE_PATTERN matches of a string, leftmost first. -/
def line_pattern_finditer (s : Chars) : List LineMatch := finditerAux s.length s

/-- module-level configuration flags of extract.py. -/
def DEFAULT_PLEDGE_EQUALS_PAYMENT : Bool := true

/-- module-level configuration flag `DEFAULT_PERCENTAGE_100`. -/
def DEFAULT_PERCENTAGE_100 : Bool := true

/-- one output row of `extract_rows_from_pdf` (the dict built per match,
keyed by the TARGET_COLUMNS). -/
structure Row where
  accountNumber : Chars
  fullName : Chars
  pledgeAmount : Option ℚ
  paymentAmount : ℚ
  paymentType : Chars
  checkNumber : Chars
  bookLabel : Chars
  percentage : Option Nat
  sourceFile : Chars
  seq : Chars
  acctFullName : Chars
  acctAccountNumber : Chars
deriving DecidableEq

/-- the body of the per-line loop of `extract_rows_from_pdf`: normalize the
line's whitespace, run `LINE_PATTERN.finditer`, and build one row per match;
the GN label is detected on the same normalized line, defaulting to GN1. -/
def extract_rows_from_line (sourceFile : Chars) (line : Chars) : List Row :=
  let lineFlat := pyNormalize line
  (line_pattern_finditer lineFlat).map fun m =>
    let payment := parseAmount (pyStrip m.amountG)
    { accountNumber := []
      fullName := pyStrip m.nameG
      pledgeAmount := if DEFAULT_PLEDGE_EQUALS_PAYMENT then some payment else none
      paymentAmount := payment
      paymentType := pyStrip m.payG
      checkNumber := pyStrip m.checkG
      bookLabel := (detect_gn_label_on_page lineFlat).getD ['G', 'N', '1']
      percentage := if DEFAULT_PERCENTAGE_100 then some 100 else none
      sourceFile := sourceFile
      seq := pyStrip m.seqG
      acctFullName := []
      acctAccountNumber := [] }

/-- the per-page loop of `extract_rows_from_pdf`: rows of all lines of the
page, in line order. -/
def extract_rows_from_lines (sourceFile : Chars) : List Chars → List Row
  | [] => []
  | l :: ls => extract_rows_from_line sourceFile l ++ extract_rows_from_lines sourceFile ls

/-! the account-number lookup table. -/

/-- one row of the loaded lookup table kept by `load_account_lookup`:
the derived abbrev_key plus the original (NaN-able) fullName and
INDACCOUNTNUMBER cells. -/
structure LookupEntry where
  abbrev_key : Chars
  fullName : Option Chars
  indAccountNumber : Option Chars
deriving DecidableEq

/-- `drop_duplicates(subset="abbrev_key")`: keep the first row per key. -/
def dedupByKeyAux : List Chars → List LookupEntry → List LookupEntry
  | _, [] => []
  | seen, e :: es =>
    if e.abbrev_key ∈ seen then dedupByKeyAux seen es
    else e :: dedupByKeyAux (e.abbrev_key :: seen) es

/-- deduplication of the lookup table on the abbreviation key. -/
def drop_duplicates_by_key (l : List LookupEntry) : List LookupEntry := dedupByKeyAux [] l

/-- the merge + masked fill applied to one record: the left merge emits one
output row per matching lookup row (records without a match survive with
NaN lookup columns, filled to empty strings); `Individuals.ACCOUNTNUMBER`
is replaced only where it was empty and the merged INDACCOUNTNUMBER is not
NaN. -/
def mergeEnrich (lu : List LookupEntry) (r : Row) : List Row :=
  let ms := lu.filter fun e => e.abbrev_key == normalize_name_for_lookup r.fullName
  if ms.isEmpty then [{ r with acctFullName := [], acctAccountNumber := [] }]
  else
    ms.map fun e =>
      { r with
        accountNumber :=
          match r.accountNumber, e.indAccountNumber with
          | [], some a => a
          | acc, _ => acc
        acctFullName := e.fullName.getD []
        acctAccountNumber := e.indAccountNumber.getD [] }

/-- `apply_account_lookup` from extract.py. -/
def apply_account_lookup (df : List Row) (lookup : Option (List LookupEntry)) : List Row :=
  match lookup with
  | none => df
  | some l => if l.isEmpty || df.isEmpty then df else df.flatMap (mergeEnrich l)

/-- the single-row enrichment under a key-unique lookup table (what
`mergeEnrich` reduces to once the table has been deduplicated). -/
def enrichRow (lu : List LookupEntry) (r : Row) : Row :=
  match lu.find? fun e => e.abbrev_key == normalize_name_for_lookup r.fullName with
  | none => { r with acctFullName := [], acctAccountNumber := [] }
  | some e =>
    { r with
      accountNumber :=
        match r.accountNumber, e.indAccountNumber with
        | [], some a => a
        | acc, _ => acc
      acctFullName := e.fullName.getD []
      acctAccountNumber := e.indAccountNumber.getD [] }

/-- key-uniqueness of a lookup table. -/
def uniqueKeys (lu : List LookupEntry) : Prop := (lu.map LookupEntry.abbrev_key).Nodup

/-! the CSV lookup file, modelled as a dataframe of named columns. -/

/-- a pandas dataframe: named columns of NaN-able cells. -/
structure Frame where
  cols : List (Chars × List (Option Chars))

/-- column selection `df[name]`; `none` models a raised `KeyError`. -/
def getCol (df : Frame) (name : Chars) : Option (List (Option Chars)) :=
  (df.cols.find? fun c => c.1 == name).map fun c => c.2

/-- `df.rename(columns={c: c.strip() for c in df.columns})`. -/
def renameStripCols (df : Frame) : Frame := ⟨df.cols.map fun c => (pyStrip c.1, c.2)⟩

/-- `astype(str)` on one cell: a missing value prints as "nan". -/
def cellStr : Option Chars → Chars
  | some s => s
  | none => ['n', 'a', 'n']

/-- the abbreviated key built from the lookup table's first/last-name
columns: `df["INDFIRSTNAME"].astype(str).str[0].str.upper() + " " +`
`df["INDLASTNAME"].astype(str).str.upper().str.strip()`. -/
def lookup_abbrev_key (first last : Chars) : Chars :=
  (first.take 1).map Char.toUpper ++ ' ' :: pyStrip (last.map Char.toUpper)

/-- the per-row construction of the lookup entries from the four columns. -/
def buildEntries (fn ln full acct : List (Option Chars)) : List LookupEntry :=
  (fn.zip (ln.zip (full.zip acct))).map fun p =>
    ⟨lookup_abbrev_key (cellStr p.1) (cellStr p.2.1), p.2.2.1, p.2.2.2⟩

/-- `load_account_lookup` from extract.py: `none` input means the path was
`None` or missing (both return `None` after a warning); a present file is the
parsed dataframe.  The function checks only for `fullName` and
`INDACCOUNTNUMBER`, then unconditionally indexes `INDFIRSTNAME` and
`INDLASTNAME`; a missing one of those raises `KeyError`, modelled as
`Except.error`. -/
def load_account_lookup (file : Option Frame) : Except Chars (Option (List LookupEntry)) :=
  match file with
  | none => Except.ok none
  | some df0 =>
    let df := renameStripCols df0
    if (getCol df "fullName".toList).isSome && (getCol df "INDACCOUNTNUMBER".toList).isSome then
      match getCol df "INDFIRSTNAME".toList with
      | none => Except.error "KeyError: INDFIRSTNAME".toList
      | some fn =>
        match getCol df "INDLASTNAME".toList with
        | none => Except.error "KeyError: INDLASTNAME".toList
        | some ln =>
          match getCol df "fullName".toList, getCol df "INDACCOUNTNUMBER".toList with
          | some full, some acct =>
            Except.ok (some (drop_duplicates_by_key (buildEntries fn ln full acct)))
          | _, _ => Except.ok none
    else Except.ok none

/-- `DataFrame.drop_duplicates()` before export: keep a row only if no row
equal to it in every column occurred earlier. -/
def dropDupAux {α : Type} [DecidableEq α] : List α → List α → List α
  | _, [] => []
  | seen, r :: rs =>
    if r ∈ seen then dropDupAux seen rs else r :: dropDupAux (r :: seen) rs

/-- exact-duplicate removal over all columns. -/
def drop_duplicates {α : Type} [DecidableEq α] (l : List α) : List α := dropDupAux [] l

/-! spec-side characterizations of the GN label detector (these two follow
the words of the specification, to be compared with the matcher embedded
from the source). -/

/-- the claim's reading at one position: `GN`, optionally a single separator
character (hyphen or space), then one digit 1-7, at word boundaries,
case-insensitively. -/
def specGNTokenAt : Chars → Bool
  | g :: n :: rest =>
    (g == 'G' || g == 'g') && (n == 'N' || n == 'n') &&
      (match rest with
       | d :: post =>
         (digit17 d && boundaryAfter post) ||
           (match post with
            | d2 :: post2 => (d == '-' || d == ' ') && digit17 d2 && boundaryAfter post2
            | [] => false)
       | [] => false)
  | _ => false

/-- word boundary before position `p` of `l`. -/
def boundaryBeforeAt (l : Chars) (p : Nat) : Bool :=
  p == 0 || !(isWordChar (l.getD (p - 1) ' '))

/-- the claim's predicate: the line contains the token `GN` optionally
followed by a single separator (hyphen or space) and a digit 1-7. -/
def specGNTokenSingleSep (l : Chars) : Bool :=
  (List.range l.length).any fun p => boundaryBeforeAt l p && specGNTokenAt (l.drop p)

/-- amended separator rule at one position: `GN`, then any whitespace run,
then at most one hyphen-or-space, then a digit 1-7 at a word boundary. -/
def amendSepDigit : Chars → Bool
  | c :: d :: post => (c == '-' || c == ' ') && digit17 d && boundaryAfter post
  | _ => false

/-- amended rule, separator absent: a digit 1-7 at a word boundary. -/
def amendNoSepDigit : Chars → Bool
  | d :: post => digit17 d && boundaryAfter post
  | [] => false

/-- the amended reading at one position. -/
def amendGNAt : Chars → Bool
  | g :: n :: rest =>
    (g == 'G' || g == 'g') && (n == 'N' || n == 'n') &&
      ((List.range ((rest.takeWhile isPySpace).length + 1)).any fun w =>
        amendSepDigit (rest.drop w) || amendNoSepDigit (rest.drop w))
  | _ => false

/-- the amended containment predicate for the GN label. -/
def amendedGNContains (l : Chars) : Bool :=
  (List.range l.length).any fun p => boundaryBeforeAt l p && amendGNAt (l.drop p)

/-- a nonempty whitespace-free token. -/
def Tok (t : Chars) : Prop := t ≠ [] ∧ ∀ c ∈ t, isPySpace c = false

/-- a name token that cannot be mistaken for the check-number field: it
additionally contains a non-digit character. -/
def NameTok (t : Chars) : Prop := Tok t ∧ ∃ c ∈ t, c.isDigit = false

/-- the payment-type enumeration of LINE_PATTERN. -/
def payTypes : List Chars := ["Check".toList, "Cash".toList, "Card".toList, "ACH".toList]

/-- a concrete extracted row (the Boyd example line of the spec), used to
instantiate the enrichment theorems. -/
def exRow : Row :=
  { accountNumber := [],
    fullName := "JAMES ROBERT BOYD".toList,
    pledgeAmount := some 100,
    paymentAmount := 100,
    paymentType := "Check".toList,
    checkNumber := "2727".toList,
    bookLabel := "GN1".toList,
    percentage := some 100,
    sourceFile := "GNEF.pdf".toList,
    seq := "5250031143286".toList,
    acctFullName := [],
    acctAccountNumber := [] }

/-- a second concrete row whose account number is already filled before
enrichment. -/
def exRow2 : Row :=
  { exRow with
    fullName := "FREDERICK B HUSSEY".toList,
    accountNumber := "999".toList }

/-- a concrete lookup table holding a duplicated abbreviation key. -/
def exLookup : List LookupEntry :=
  [⟨"J BOYD".toList, some "JAMES BOYD".toList, some "12345".toList⟩,
   ⟨"J BOYD".toList, some "JAMES B BOYD".toList, some "67890".toList⟩,
   ⟨"F HUSSEY".toList, some "FREDERICK HUSSEY".toList, some "55555".toList⟩]

instance (t : Chars) : Decidable (Tok t) := by
  unfold Tok
  infer_instance

instance (t : Chars) : Decidable (NameTok t) := by
  unfold NameTok
  infer_instance

instance (lu : List LookupEntry) : Decidable (uniqueKeys lu) := by
  unfold uniqueKeys
  infer_instance

/-! ### character-level lemmas -/

theorem isPySpace_iff {c : Char} : isPySpace c = true ↔
    (c.toNat = 32 ∨ c.toNat = 9 ∨ c.toNat = 10 ∨ c.toNat = 13 ∨
      c.toNat = 11 ∨ c.toNat = 12) := by
  simp [isPySpace, or_assoc]

theorem char_toNat_ofNat {n : Nat} (h : n < 55296) : (Char.ofNat n).toNat = n := by
  have hv : n.isValidChar := Or.inl h
  rw [Char.ofNat, dif_pos hv]
  simp [Char.ofNatAux, Char.toNat, UInt32.toNat]

theorem char_toUpper_eq (c : Char) :
    c.toUpper = if c.toNat ≥ 97 ∧ c.toNat ≤ 122 then Char.ofNat (c.toNat - 32) else c := rfl

theorem isPySpace_toUpper (c : Char) : isPySpace c.toUpper = isPySpace c := by
  rw [char_toUpper_eq]
  by_cases h : c.toNat ≥ 97 ∧ c.toNat ≤ 122
  · rw [if_pos h]
    have h2 : (Char.ofNat (c.toNat - 32)).toNat = c.toNat - 32 :=
      char_toNat_ofNat (by omega)
    have hl : isPySpace (Char.ofNat (c.toNat - 32)) = false := by
      rw [← Bool.not_eq_true, isPySpace_iff, h2]
      omega
    have hr : isPySpace c = false := by
      rw [← Bool.not_eq_true, isPySpace_iff]
      omega
    rw [hl, hr]
  · rw [if_neg h]

theorem toUpper_toUpper (c : Char) : c.toUpper.toUpper = c.toUpper := by
  rw [char_toUpper_eq c]
  by_cases h : c.toNat ≥ 97 ∧ c.toNat ≤ 122
  · rw [if_pos h, char_toUpper_eq]
    have h2 : (Char.ofNat (c.toNat - 32)).toNat = c.toNat - 32 :=
      char_toNat_ofNat (by omega)
    rw [if_neg (by omega)]
  · rw [if_neg h, char_toUpper_eq, if_neg h]

theorem isDigit_toNat (c : Char) :
    c.isDigit = (decide (48 ≤ c.toNat) && decide (c.toNat ≤ 57)) := by
  simp only [Char.isDigit]
  congr 1

theorem isDigit_not_space {c : Char} (h : c.isDigit = true) : isPySpace c = false := by
  rw [isDigit_toNat] at h
  simp only [Bool.and_eq_true, decide_eq_true_eq] at h
  rw [← Bool.not_eq_true, isPySpace_iff]
  omega

theorem not_newline {c : Char} (h : isPySpace c = false) : (c == '\n') = false := by
  cases hc : c == '\n'
  · rfl
  · rw [beq_iff_eq] at hc
    subst hc
    exact absurd h (by decide)

/-! ### takeWhile / dropWhile / strip / split lemmas -/

theorem takeWhile_append_all {α : Type} {p : α → Bool} {xs Y : List α}
    (h : ∀ c ∈ xs, p c = true) :
    (xs ++ Y).takeWhile p = xs ++ Y.takeWhile p := by
  induction xs with
  | nil => rfl
  | cons a l ih =>
    have ha := h a (List.mem_cons_self a l)
    have ihh := ih fun c hc => h c (List.mem_cons_of_mem a hc)
    simp [List.takeWhile_cons, ha, ihh]

theorem dropWhile_append_all {α : Type} {p : α → Bool} {xs ys : List α}
    (h : ∀ c ∈ xs, p c = true) :
    (xs ++ ys).dropWhile p = ys.dropWhile p := by
  induction xs with
  | nil => rfl
  | cons a l ih =>
    have ha := h a (List.mem_cons_self a l)
    have ihh := ih fun c hc => h c (List.mem_cons_of_mem a hc)
    simp [List.dropWhile_cons, ha, ihh]

theorem takeWhile_cons_false {α : Type} {p : α → Bool} {c : α} {cs : List α}
    (h : p c = false) : (c :: cs).takeWhile p = [] := by
  simp [List.takeWhile_cons, h]

theorem dropWhile_cons_false {α : Type} {p : α → Bool} {c : α} {cs : List α}
    (h : p c = false) : (c :: cs).dropWhile p = c :: cs := by
  simp [List.dropWhile_cons, h]

theorem dropWhile_head?_false {α : Type} {p : α → Bool} {l : List α} {a : α}
    (h : (l.dropWhile p).head? = some a) : p a = false := by
  induction l with
  | nil => simp at h
  | cons c cs ih =>
    rw [List.dropWhile_cons] at h
    by_cases hc : p c = true
    · rw [if_pos hc] at h
      exact ih h
    · rw [if_neg hc] at h
      simp only [List.head?_cons, Option.some.injEq] at h
      subst h
      exact Bool.not_eq_true _ |>.mp hc

theorem dropWhile_getLast? {α : Type} {p : α → Bool} {l : List α}
    (h : l.dropWhile p ≠ []) : (l.dropWhile p).getLast? = l.getLast? := by
  induction l with
  | nil => simp at h
  | cons c cs ih =>
    rw [List.dropWhile_cons]
    by_cases hc : p c = true
    · rw [List.dropWhile_cons, if_pos hc] at h
      rw [if_pos hc, ih h]
      have hcs : cs ≠ [] := by
        intro hnil
        rw [hnil] at h
        exact h rfl
      cases cs with
      | nil => exact absurd rfl hcs
      | cons d ds => rw [List.getLast?_cons_cons]
    · rw [if_neg hc]

theorem head?_nonspace_strip {l : Chars} {a : Char}
    (ha : l.head? = some a) (hs : isPySpace a = false) :
    l.dropWhile isPySpace = l := by
  cases l with
  | nil => simp at ha
  | cons c cs =>
    simp only [List.head?_cons, Option.some.injEq] at ha
    subst ha
    exact dropWhile_cons_false hs

theorem pyStrip_eq_self {l : Chars}
    (h1 : ∀ a, l.head? = some a → isPySpace a = false)
    (h2 : ∀ a, l.getLast? = some a → isPySpace a = false) :
    pyStrip l = l := by
  unfold pyStrip
  cases l with
  | nil => rfl
  | cons c cs =>
    have hh : (c :: cs).head? = some c := rfl
    rw [head?_nonspace_strip hh (h1 c hh)]
    cases hg : (c :: cs).getLast? with
    | none => simp at hg
    | some b =>
      have hb : (c :: cs).reverse.head? = some b := by
        rw [List.head?_reverse]
        exact hg
      rw [head?_nonspace_strip hb (h2 b hg), List.reverse_reverse]

theorem pyStrip_nospace {l : Chars} (h : ∀ c ∈ l, isPySpace c = false) :
    pyStrip l = l := by
  refine pyStrip_eq_self (fun a ha => h a ?_) (fun a ha => h a ?_)
  · exact List.mem_of_mem_head? ha
  · exact List.mem_of_mem_getLast? ha

theorem pyStrip_ne_nil {l : Chars} {a : Char}
    (ha : l.head? = some a) (hs : isPySpace a = false) : pyStrip l ≠ [] := by
  unfold pyStrip
  rw [head?_nonspace_strip ha hs]
  intro hcon
  have h1 : l.reverse.dropWhile isPySpace = [] := by
    have h2 := congrArg List.reverse hcon
    rw [List.reverse_reverse] at h2
    simpa using h2
  have hmem : a ∈ l.reverse := by
    rw [List.mem_reverse]
    exact List.mem_of_mem_head? ha
  have hall := List.dropWhile_eq_nil_iff.mp h1
  have h3 := hall a hmem
  rw [hs] at h3
  exact Bool.false_ne_true h3

theorem pyStrip_head?_false {l : Chars} {a : Char}
    (h : (pyStrip l).head? = some a) : isPySpace a = false := by
  unfold pyStrip at h
  rw [List.head?_reverse] at h
  have hne : (l.dropWhile isPySpace).reverse.dropWhile isPySpace ≠ [] := by
    intro hnil
    rw [hnil] at h
    simp at h
  rw [dropWhile_getLast? hne, List.getLast?_reverse] at h
  exact dropWhile_head?_false h

theorem pyStrip_getLast?_false {l : Chars} {a : Char}
    (h : (pyStrip l).getLast? = some a) : isPySpace a = false := by
  unfold pyStrip at h
  rw [List.getLast?_reverse] at h
  exact dropWhile_head?_false h

theorem pyStrip_idem (l : Chars) : pyStrip (pyStrip l) = pyStrip l :=
  pyStrip_eq_self (fun _ ha => pyStrip_head?_false ha)
    (fun _ ha => pyStrip_getLast?_false ha)

theorem pySplit_nil : pySplit [] = [] := rfl

theorem pySplit_one (c : Char) :
    pySplit [c] = if isPySpace c then [] else [[c]] := by
  by_cases h : isPySpace c = true <;> simp [pySplit, h]

theorem pySplit_cons_cons (c d : Char) (ds : Chars) :
    pySplit (c :: d :: ds) =
      if isPySpace c then pySplit (d :: ds)
      else if isPySpace d then [c] :: pySplit (d :: ds)
      else
        match pySplit (d :: ds) with
        | t :: ts => (c :: t) :: ts
        | [] => [[c]] := by
  by_cases h : isPySpace c = true
  · simp [pySplit, h]
  · by_cases h2 : isPySpace d = true <;> simp [pySplit, h, h2]

theorem pySplit_space {a : Char} (rest : Chars) (ha : isPySpace a = true) :
    pySplit (a :: rest) = pySplit rest := by
  cases rest with
  | nil => rw [pySplit_one, if_pos ha, pySplit_nil]
  | cons r rs => rw [pySplit_cons_cons, if_pos ha]

theorem pySplit_tok {l : Chars} : ∀ t ∈ pySplit l, Tok t := by
  induction l with
  | nil =>
    intro t h
    simp [pySplit] at h
  | cons c cs ih =>
    intro t h
    cases cs with
    | nil =>
      rw [pySplit_one] at h
      by_cases hc : isPySpace c = true
      · rw [if_pos hc] at h
        simp at h
      · rw [if_neg hc] at h
        simp only [List.mem_singleton] at h
        subst h
        exact ⟨by simp, by simp [Bool.not_eq_true] at hc; simp [hc]⟩
    | cons d ds =>
      rw [pySplit_cons_cons] at h
      by_cases hc : isPySpace c = true
      · rw [if_pos hc] at h
        exact ih t h
      · rw [if_neg hc] at h
        rw [Bool.not_eq_true] at hc
        by_cases hd : isPySpace d = true
        · rw [if_pos hd] at h
          rcases List.mem_cons.mp h with h1 | h2
          · subst h1
            exact ⟨by simp, by simp [hc]⟩
          · exact ih t h2
        · rw [if_neg hd] at h
          cases hsplit : pySplit (d :: ds) with
          | nil =>
            rw [hsplit] at h
            simp only [List.mem_singleton] at h
            subst h
            exact ⟨by simp, by simp [hc]⟩
          | cons t0 ts =>
            rw [hsplit] at h
            simp only at h
            rcases List.mem_cons.mp h with h1 | h2
            · subst h1
              have ht0 : Tok t0 :=
                ih t0 (by rw [hsplit]; exact List.mem_cons_self t0 ts)
              refine ⟨by simp, ?_⟩
              intro x hx
              rcases List.mem_cons.mp hx with hx1 | hx2
              · subst hx1
                exact hc
              · exact ht0.2 x hx2
            · exact ih t (by rw [hsplit]; exact List.mem_cons_of_mem t0 h2)

theorem pySplit_single {t : Chars} (h : Tok t) : pySplit t = [t] := by
  induction t with
  | nil => exact absurd rfl h.1
  | cons c cs ih =>
    have hc : isPySpace c = false := h.2 c (List.mem_cons_self c cs)
    cases cs with
    | nil => rw [pySplit_one, if_neg (by rw [hc]; exact Bool.false_ne_true)]
    | cons d ds =>
      have hd : isPySpace d = false :=
        h.2 d (List.mem_cons_of_mem c (List.mem_cons_self d ds))
      have hds : Tok (d :: ds) :=
        ⟨by simp, fun x hx => h.2 x (List.mem_cons_of_mem c hx)⟩
      rw [pySplit_cons_cons, if_neg (by rw [hc]; exact Bool.false_ne_true),
        if_neg (by rw [hd]; exact Bool.false_ne_true), ih hds]

theorem pySplit_sep {t rest : Chars} (h : Tok t) :
    pySplit (t ++ ' ' :: rest) = t :: pySplit rest := by
  induction t with
  | nil => exact absurd rfl h.1
  | cons c cs ih =>
    have hc : isPySpace c = false := h.2 c (List.mem_cons_self c cs)
    cases cs with
    | nil =>
      rw [List.cons_append, List.nil_append, pySplit_cons_cons,
        if_neg (by rw [hc]; exact Bool.false_ne_true), if_pos (by decide),
        pySplit_space rest (by decide)]
    | cons d ds =>
      have hd : isPySpace d = false :=
        h.2 d (List.mem_cons_of_mem c (List.mem_cons_self d ds))
      have hds : Tok (d :: ds) :=
        ⟨by simp, fun x hx => h.2 x (List.mem_cons_of_mem c hx)⟩
      rw [List.cons_append]
      rw [show (d :: ds) ++ ' ' :: rest = d :: (ds ++ ' ' :: rest) from rfl]
      rw [pySplit_cons_cons, if_neg (by rw [hc]; exact Bool.false_ne_true)]
      rw [if_neg (by rw [hd]; exact Bool.false_ne_true)]
      rw [show d :: (ds ++ ' ' :: rest) = (d :: ds) ++ ' ' :: rest from rfl]
      rw [ih hds]

theorem joinTok_cons {t : Chars} {s : List Chars} (h : s ≠ []) :
    joinTok (t :: s) = t ++ ' ' :: joinTok s := by
  cases s with
  | nil => exact absurd rfl h
  | cons a l => rfl

theorem joinTok_ne_nil {T : List Chars} (hne : T ≠ [])
    (h : ∀ t ∈ T, Tok t) : joinTok T ≠ [] := by
  cases T with
  | nil => exact absurd rfl hne
  | cons t ts =>
    cases ts with
    | nil => exact (h t (List.mem_cons_self t [])).1
    | cons a l =>
      rw [joinTok_cons (by simp)]
      simp

theorem joinTok_ends {T : List Chars} (hne : T ≠ []) (h : ∀ t ∈ T, Tok t) :
    (∀ a, (joinTok T).head? = some a → isPySpace a = false) ∧
      (∀ a, (joinTok T).getLast? = some a → isPySpace a = false) := by
  induction T with
  | nil => exact absurd rfl hne
  | cons t ts ih =>
    have ht : Tok t := h t (List.mem_cons_self t ts)
    cases ts with
    | nil =>
      constructor
      · intro a ha
        exact ht.2 a (List.mem_of_mem_head? ha)
      · intro a ha
        exact ht.2 a (List.mem_of_mem_getLast? ha)
    | cons u us =>
      have ihr := ih (by simp) fun x hx => h x (List.mem_cons_of_mem t hx)
      rw [joinTok_cons (by simp)]
      constructor
      · intro a ha
        rw [List.head?_append_of_ne_nil _ ht.1] at ha
        exact ht.2 a (List.mem_of_mem_head? ha)
      · intro a ha
        rw [List.getLast?_append_of_ne_nil _ (by simp)] at ha
        have hj : joinTok (u :: us) ≠ [] :=
          joinTok_ne_nil (by simp) fun x hx => h x (List.mem_cons_of_mem t hx)
        cases hjj : joinTok (u :: us) with
        | nil => exact absurd hjj hj
        | cons b bs =>
          rw [hjj, List.getLast?_cons_cons] at ha
          apply ihr.2 a
          rw [hjj]
          exact ha

theorem collapseWs_append_tok {t X : Chars} (h : ∀ c ∈ t, isPySpace c = false) :
    collapseWs false (t ++ X) = t ++ collapseWs false X := by
  induction t with
  | nil => rfl
  | cons c cs ih =>
    have hc : isPySpace c = false := h c (List.mem_cons_self c cs)
    rw [List.cons_append, collapseWs, if_neg (by rw [hc]; exact Bool.false_ne_true)]
    rw [ih fun x hx => h x (List.mem_cons_of_mem c hx)]
    rfl

theorem collapseWs_true_head {c : Char} {X : Chars} (h : isPySpace c = false) :
    collapseWs true (c :: X) = collapseWs false (c :: X) := by
  rw [collapseWs, collapseWs, if_neg (by rw [h]; exact Bool.false_ne_true),
    if_neg (by rw [h]; exact Bool.false_ne_true)]

theorem collapseWs_joinTok {T : List Chars} (hne : T ≠ [])
    (h : ∀ t ∈ T, Tok t) : collapseWs false (joinTok T) = joinTok T := by
  induction T with
  | nil => exact absurd rfl hne
  | cons t ts ih =>
    have ht : Tok t := h t (List.mem_cons_self t ts)
    cases ts with
    | nil =>
      show collapseWs false (joinTok [t]) = joinTok [t]
      have h2 := collapseWs_append_tok (X := []) ht.2
      rw [List.append_nil] at h2
      show collapseWs false t = t
      rw [h2]
      simp [collapseWs]
    | cons u us =>
      have hts : ∀ x ∈ u :: us, Tok x := fun x hx => h x (List.mem_cons_of_mem t hx)
      rw [joinTok_cons (by simp), collapseWs_append_tok ht.2, collapseWs]
      rw [if_pos (by decide)]
      have hj : joinTok (u :: us) ≠ [] := joinTok_ne_nil (by simp) hts
      cases hjj : joinTok (u :: us) with
      | nil => exact absurd hjj hj
      | cons b bs =>
        have hb : isPySpace b = false := by
          apply (joinTok_ends (T := u :: us) (by simp) hts).1 b
          rw [hjj]
          rfl
        rw [collapseWs_true_head hb, ← hjj, ih (by simp) hts]
        simp

theorem pyNormalize_joinTok {T : List Chars} (hne : T ≠ [])
    (h : ∀ t ∈ T, Tok t) : pyNormalize (joinTok T) = joinTok T := by
  unfold pyNormalize
  rw [collapseWs_joinTok hne h]
  exact pyStrip_eq_self (joinTok_ends hne h).1 (joinTok_ends hne h).2

theorem pyStrip_joinTok {T : List Chars} (hne : T ≠ [])
    (h : ∀ t ∈ T, Tok t) : pyStrip (joinTok T) = joinTok T :=
  pyStrip_eq_self (joinTok_ends hne h).1 (joinTok_ends hne h).2

theorem joinTok_append {xs ys : List Chars} (hx : xs ≠ []) (hy : ys ≠ []) :
    joinTok (xs ++ ys) = joinTok xs ++ ' ' :: joinTok ys := by
  induction xs with
  | nil => exact absurd rfl hx
  | cons t ts ih =>
    cases ts with
    | nil =>
      cases ys with
      | nil => exact absurd rfl hy
      | cons u us =>
        rw [List.cons_append, List.nil_append, joinTok_cons (by simp)]
        rfl
    | cons v vs =>
      rw [List.cons_append, joinTok_cons (by simp), joinTok_cons (by simp),
        ih (by simp), List.append_assoc]
      rfl

/-! ### lemmas about the name normalizer (lookup-key derivation) -/

theorem toUpper_space : Char.toUpper ' ' = ' ' := by decide

theorem map_toUpper_fixed {r : Chars} (h : ∀ c ∈ r, Char.toUpper c = c) :
    r.map Char.toUpper = r := by
  induction r with
  | nil => rfl
  | cons c cs ih =>
    rw [List.map_cons, h c (List.mem_cons_self c cs),
      ih fun x hx => h x (List.mem_cons_of_mem c hx)]

theorem upperFixed_of_mem_mapUpper {s : Chars} {c : Char}
    (h : c ∈ s.map Char.toUpper) : Char.toUpper c = c := by
  rcases List.mem_map.mp h with ⟨d, _, rfl⟩
  exact toUpper_toUpper d

theorem mem_pyStrip_sub {l : Chars} : ∀ c ∈ pyStrip l, c ∈ l := by
  intro c hc
  unfold pyStrip at hc
  rw [List.mem_reverse] at hc
  have h1 := (List.dropWhile_sublist (l := (l.dropWhile isPySpace).reverse)
    (p := isPySpace)).subset hc
  rw [List.mem_reverse] at h1
  exact (List.dropWhile_sublist (l := l) (p := isPySpace)).subset h1

theorem pySplit_subset {l : Chars} : ∀ t ∈ pySplit l, ∀ c ∈ t, c ∈ l := by
  induction l with
  | nil =>
    intro t h
    simp [pySplit] at h
  | cons c cs ih =>
    intro t h x hx
    cases cs with
    | nil =>
      rw [pySplit_one] at h
      by_cases hc : isPySpace c = true
      · rw [if_pos hc] at h
        simp at h
      · rw [if_neg hc] at h
        simp only [List.mem_singleton] at h
        subst h
        simpa using hx
    | cons d ds =>
      rw [pySplit_cons_cons] at h
      by_cases hc : isPySpace c = true
      · rw [if_pos hc] at h
        exact List.mem_cons_of_mem c (ih t h x hx)
      · rw [if_neg hc] at h
        by_cases hd : isPySpace d = true
        · rw [if_pos hd] at h
          rcases List.mem_cons.mp h with h1 | h2
          · subst h1
            simp only [List.mem_singleton] at hx
            subst hx
            exact List.mem_cons_self x (d :: ds)
          · exact List.mem_cons_of_mem c (ih t h2 x hx)
        · rw [if_neg hd] at h
          cases hsplit : pySplit (d :: ds) with
          | nil =>
            rw [hsplit] at h
            simp only [List.mem_singleton] at h
            subst h
            simp only [List.mem_singleton] at hx
            subst hx
            exact List.mem_cons_self x (d :: ds)
          | cons t0 ts =>
            rw [hsplit] at h
            simp only at h
            rcases List.mem_cons.mp h with h1 | h2
            · subst h1
              rcases List.mem_cons.mp hx with hx1 | hx2
              · subst hx1
                exact List.mem_cons_self x (d :: ds)
              · exact List.mem_cons_of_mem c
                  (ih t0 (by rw [hsplit]; exact List.mem_cons_self t0 ts) x hx2)
            · exact List.mem_cons_of_mem c
                (ih t (by rw [hsplit]; exact List.mem_cons_of_mem t0 h2) x hx)

theorem getLastD_mem {α : Type} : ∀ (l : List α), l ≠ [] → ∀ d, l.getLastD d ∈ l := by
  intro l
  induction l with
  | nil => intro h; exact absurd rfl h
  | cons a as ih =>
    intro _ d
    cases as with
    | nil => simp [List.getLastD]
    | cons b bs =>
      rw [List.getLastD_cons]
      exact List.mem_cons_of_mem a (ih (by simp) a)

theorem normalize_eq_long {name p0 p1 : Chars} {rest : List Chars}
    (hp : pySplit (pyStrip (name.map Char.toUpper)) = p0 :: p1 :: rest) :
    normalize_name_for_lookup name =
      p0.take 1 ++ ' ' :: ((p0 :: p1 :: rest).getLastD []) := by
  unfold normalize_name_for_lookup
  rw [hp]

theorem normalize_eq_short {name : Chars}
    (hp : (pySplit (pyStrip (name.map Char.toUpper))).length < 2) :
    normalize_name_for_lookup name = pyStrip (name.map Char.toUpper) := by
  unfold normalize_name_for_lookup
  cases hs : pySplit (pyStrip (name.map Char.toUpper)) with
  | nil => rfl
  | cons a as =>
    cases as with
    | nil => rfl
    | cons b bs =>
      rw [hs] at hp
      simp only [List.length_cons] at hp
      omega

theorem normalize_idem_short {name : Chars}
    (hlen : (pySplit (pyStrip (name.map Char.toUpper))).length < 2) :
    normalize_name_for_lookup (normalize_name_for_lookup name) =
      normalize_name_for_lookup name := by
  have he := normalize_eq_short hlen
  have hfix : (pyStrip (name.map Char.toUpper)).map Char.toUpper
      = pyStrip (name.map Char.toUpper) :=
    map_toUpper_fixed fun c hc => upperFixed_of_mem_mapUpper (mem_pyStrip_sub c hc)
  have hstrip := pyStrip_idem (name.map Char.toUpper)
  have h2 : normalize_name_for_lookup (pyStrip (name.map Char.toUpper))
      = pyStrip ((pyStrip (name.map Char.toUpper)).map Char.toUpper) :=
    normalize_eq_short (by rw [hfix, hstrip]; exact hlen)
  rw [he, h2, hfix, hstrip]

theorem normalize_idem_long {name p0 p1 : Chars} {rest : List Chars}
    (hp : pySplit (pyStrip (name.map Char.toUpper)) = p0 :: p1 :: rest) :
    normalize_name_for_lookup (normalize_name_for_lookup name) =
      normalize_name_for_lookup name := by
  have hmem0 : p0 ∈ pySplit (pyStrip (name.map Char.toUpper)) := by
    rw [hp]
    exact List.mem_cons_self _ _
  have ht0 : Tok p0 := pySplit_tok p0 hmem0
  have hLmem : (p0 :: p1 :: rest).getLastD [] ∈
      pySplit (pyStrip (name.map Char.toUpper)) := by
    rw [hp]
    exact getLastD_mem _ (by simp) []
  have htL : Tok ((p0 :: p1 :: rest).getLastD []) := pySplit_tok _ hLmem
  have hfixL : ∀ x ∈ (p0 :: p1 :: rest).getLastD [], Char.toUpper x = x := fun x hx =>
    upperFixed_of_mem_mapUpper (mem_pyStrip_sub x (pySplit_subset _ hLmem x hx))
  obtain ⟨c0, p0t, rfl⟩ : ∃ c0 p0t, p0 = c0 :: p0t := by
    cases p0 with
    | nil => exact absurd rfl ht0.1
    | cons a b => exact ⟨a, b, rfl⟩
  have hfix0 : Char.toUpper c0 = c0 :=
    upperFixed_of_mem_mapUpper (mem_pyStrip_sub c0
      (pySplit_subset _ hmem0 c0 (List.mem_cons_self _ _)))
  have hc0 : isPySpace c0 = false := ht0.2 c0 (List.mem_cons_self _ _)
  have he := normalize_eq_long hp
  have htake : (c0 :: p0t).take 1 = [c0] := by simp
  rw [htake] at he
  generalize hLdef : ((c0 :: p0t) :: p1 :: rest).getLastD [] = L at he htL hfixL
  have hmap : (c0 :: ' ' :: L).map Char.toUpper = c0 :: ' ' :: L := by
    apply map_toUpper_fixed
    intro c hcm
    rcases List.mem_cons.mp hcm with h1 | h2
    · subst h1
      exact hfix0
    · rcases List.mem_cons.mp h2 with h3 | h4
      · subst h3
        exact toUpper_space
      · exact hfixL c h4
  have htokc0 : Tok [c0] := by
    refine ⟨by simp, ?_⟩
    intro x hx
    rw [List.mem_singleton] at hx
    subst hx
    exact hc0
  have hstripr : pyStrip (c0 :: ' ' :: L) = c0 :: ' ' :: L := by
    have hall : ∀ t ∈ [[c0], L], Tok t := by
      intro t ht
      rcases List.mem_cons.mp ht with h1 | h2
      · subst h1
        exact htokc0
      · rcases List.mem_cons.mp h2 with h3 | h4
        · subst h3
          exact htL
        · simp at h4
    exact pyStrip_joinTok (T := [[c0], L]) (by simp) hall
  have hsplitr : pySplit (c0 :: ' ' :: L) = [c0] :: [L] := by
    have hsp : pySplit (([c0] : Chars) ++ ' ' :: L) = [c0] :: pySplit L :=
      pySplit_sep htokc0
    rw [pySplit_single htL] at hsp
    exact hsp
  have h2 : normalize_name_for_lookup (c0 :: ' ' :: L) =
      ([c0] : Chars).take 1 ++ ' ' :: (([[c0], L] : List Chars).getLastD []) := by
    apply normalize_eq_long
    rw [hmap, hstripr]
    exact hsplitr
  rw [he]
  rw [show ([c0] : Chars) ++ ' ' :: L = c0 :: ' ' :: L from rfl]
  rw [h2]
  simp [List.getLastD_cons]

theorem tok_map_upper {t : Chars} (h : Tok t) : Tok (t.map Char.toUpper) := by
  constructor
  · simp [h.1]
  · intro c hc
    rcases List.mem_map.mp hc with ⟨d, hd, rfl⟩
    rw [isPySpace_toUpper]
    exact h.2 d hd

/-! ### lemmas about the LINE_PATTERN matcher -/

theorem takeWhile_stop {p : Char → Bool} {xs ys : Chars} {y : Char}
    (hall : ∀ c ∈ xs, p c = true) (hy : p y = false) :
    (xs ++ y :: ys).takeWhile p = xs := by
  rw [takeWhile_append_all hall, takeWhile_cons_false hy, List.append_nil]

theorem dropWhile_stop {p : Char → Bool} {xs ys : Chars} {y : Char}
    (hall : ∀ c ∈ xs, p c = true) (hy : p y = false) :
    (xs ++ y :: ys).dropWhile p = y :: ys := by
  rw [dropWhile_append_all hall, dropWhile_cons_false hy]

theorem takeWhile_all_eq {p : Char → Bool} {l : Chars} (hall : ∀ c ∈ l, p c = true) :
    l.takeWhile p = l := by
  have h := takeWhile_append_all (Y := []) hall
  rw [List.append_nil] at h
  rw [h, List.takeWhile_nil, List.append_nil]

theorem guard_space_cons (R : Chars) :
    ((' ' :: R).takeWhile isPySpace).isEmpty = false := rfl

theorem drop_space_cons (R : Chars) :
    (' ' :: R).dropWhile isPySpace = R.dropWhile isPySpace := rfl

theorem matchPayType_construct {pt : Chars} (hpt : pt ∈ payTypes) (rest : Chars) :
    matchPayType (pt ++ rest) = some (pt, rest) := by
  unfold matchPayType
  simp only [payTypes, List.mem_cons, List.not_mem_nil, or_false] at hpt
  rcases hpt with h | h | h | h
  · subst h
    rw [if_pos (List.take_left' (by rfl)), List.drop_left' (by rfl)]
  · subst h
    rw [if_neg, if_pos (List.take_left' (by rfl)), List.drop_left' (by rfl)]
    intro hcon
    have h3 : (("Cash".toList ++ rest).take 5)[1]? = some 'a' := rfl
    rw [hcon] at h3
    exact absurd h3 (by decide)
  · subst h
    rw [if_neg, if_neg, if_pos (List.take_left' (by rfl)), List.drop_left' (by rfl)]
    · intro hcon
      have h3 : (("Card".toList ++ rest).take 4)[2]? = some 'r' := rfl
      rw [hcon] at h3
      exact absurd h3 (by decide)
    · intro hcon
      have h3 : (("Card".toList ++ rest).take 5)[1]? = some 'a' := rfl
      rw [hcon] at h3
      exact absurd h3 (by decide)
  · subst h
    rw [if_neg, if_neg, if_neg, if_pos (List.take_left' (by rfl)),
      List.drop_left' (by rfl)]
    · intro hcon
      have h3 : (("ACH".toList ++ rest).take 4)[0]? = some 'A' := rfl
      rw [hcon] at h3
      exact absurd h3 (by decide)
    · intro hcon
      have h3 : (("ACH".toList ++ rest).take 4)[0]? = some 'A' := rfl
      rw [hcon] at h3
      exact absurd h3 (by decide)
    · intro hcon
      have h3 : (("ACH".toList ++ rest).take 5)[0]? = some 'A' := rfl
      rw [hcon] at h3
      exact absurd h3 (by decide)

theorem payTypes_tok {pt : Chars} (hpt : pt ∈ payTypes) : Tok pt := by
  simp only [payTypes, List.mem_cons, List.not_mem_nil, or_false] at hpt
  rcases hpt with h | h | h | h <;> subst h <;> decide

theorem matchTail_construct {ck pt ip bt : Chars} {d1 d2 : Char}
    (hck : ck ≠ []) (hckd : ∀ c ∈ ck, c.isDigit = true) (hcklen : ck.length ≤ 10)
    (hpt : pt ∈ payTypes)
    (hip : ip ≠ []) (hipd : ∀ c ∈ ip, c.isDigit = true)
    (hd1 : d1.isDigit = true) (hd2 : d2.isDigit = true)
    (hbt : bt ≠ []) (hbtd : ∀ c ∈ bt, c.isDigit = true) :
    matchTail (' ' :: (ck ++ ' ' ::
        (pt ++ ' ' :: ((ip ++ '.' :: [d1, d2]) ++ ' ' :: bt)))) =
      some (ck, pt, ip ++ '.' :: [d1, d2], bt, []) := by
  obtain ⟨c0, ckt, rfl⟩ : ∃ c0 ckt, ck = c0 :: ckt := by
    cases ck with
    | nil => exact absurd rfl hck
    | cons a b => exact ⟨a, b, rfl⟩
  obtain ⟨i0, ipt, rfl⟩ : ∃ i0 ipt, ip = i0 :: ipt := by
    cases ip with
    | nil => exact absurd rfl hip
    | cons a b => exact ⟨a, b, rfl⟩
  obtain ⟨b0, btt, rfl⟩ : ∃ b0 btt, bt = b0 :: btt := by
    cases bt with
    | nil => exact absurd rfl hbt
    | cons a b => exact ⟨a, b, rfl⟩
  obtain ⟨q0, ptt, hpteq, hq0⟩ : ∃ q0 ptt, pt = q0 :: ptt ∧ isPySpace q0 = false := by
    have h := payTypes_tok hpt
    cases pt with
    | nil => exact absurd rfl h.1
    | cons a b => exact ⟨a, b, rfl, h.2 a (List.mem_cons_self a b)⟩
  have hamt : ((i0 :: ipt) ++ '.' :: [d1, d2]) ++ ' ' :: (b0 :: btt) =
      (i0 :: ipt) ++ '.' :: d1 :: d2 :: ' ' :: (b0 :: btt) := by
    rw [List.append_assoc]
    rfl
  have hg2 : ((c0 :: ckt) ++ ' ' ::
      (pt ++ ' ' :: ((i0 :: ipt) ++ '.' :: d1 :: d2 :: ' ' :: (b0 :: btt)))).dropWhile
        isPySpace =
      (c0 :: ckt) ++ ' ' ::
        (pt ++ ' ' :: ((i0 :: ipt) ++ '.' :: d1 :: d2 :: ' ' :: (b0 :: btt))) := by
    rw [List.cons_append]
    exact dropWhile_cons_false (isDigit_not_space (hckd c0 (List.mem_cons_self c0 ckt)))
  have hg3 : ((c0 :: ckt) ++ ' ' ::
      (pt ++ ' ' :: ((i0 :: ipt) ++ '.' :: d1 :: d2 :: ' ' :: (b0 :: btt)))).takeWhile
        Char.isDigit = c0 :: ckt := takeWhile_stop hckd (by decide)
  have hgck : ((c0 :: ckt).isEmpty || decide ((c0 :: ckt).length > 10)) = false := by
    simp only [List.isEmpty_cons, Bool.false_or, decide_eq_false_iff_not]
    omega
  have hg4 : ((c0 :: ckt) ++ ' ' ::
      (pt ++ ' ' :: ((i0 :: ipt) ++ '.' :: d1 :: d2 :: ' ' :: (b0 :: btt)))).dropWhile
        Char.isDigit =
      ' ' :: (pt ++ ' ' :: ((i0 :: ipt) ++ '.' :: d1 :: d2 :: ' ' :: (b0 :: btt))) :=
    dropWhile_stop hckd (by decide)
  have hg5 : (pt ++ ' ' ::
      ((i0 :: ipt) ++ '.' :: d1 :: d2 :: ' ' :: (b0 :: btt))).dropWhile isPySpace =
      pt ++ ' ' :: ((i0 :: ipt) ++ '.' :: d1 :: d2 :: ' ' :: (b0 :: btt)) := by
    rw [hpteq, List.cons_append]
    exact dropWhile_cons_false hq0
  have hg6 := matchPayType_construct hpt
    (' ' :: ((i0 :: ipt) ++ '.' :: d1 :: d2 :: ' ' :: (b0 :: btt)))
  have hg7 : ((i0 :: ipt) ++ '.' :: d1 :: d2 :: ' ' :: (b0 :: btt)).dropWhile
      isPySpace = (i0 :: ipt) ++ '.' :: d1 :: d2 :: ' ' :: (b0 :: btt) := by
    rw [List.cons_append]
    exact dropWhile_cons_false (isDigit_not_space (hipd i0 (List.mem_cons_self i0 ipt)))
  have hg8 : ((i0 :: ipt) ++ '.' :: d1 :: d2 :: ' ' :: (b0 :: btt)).takeWhile
      Char.isDigit = i0 :: ipt := takeWhile_stop hipd (by decide)
  have hg9 : ((i0 :: ipt) ++ '.' :: d1 :: d2 :: ' ' :: (b0 :: btt)).dropWhile
      Char.isDigit = '.' :: d1 :: d2 :: ' ' :: (b0 :: btt) :=
    dropWhile_stop hipd (by decide)
  have hg10 : (b0 :: btt).dropWhile isPySpace = b0 :: btt :=
    dropWhile_cons_false (isDigit_not_space (hbtd b0 (List.mem_cons_self b0 btt)))
  have hg11 : (b0 :: btt).takeWhile Char.isDigit = b0 :: btt := takeWhile_all_eq hbtd
  have hgip : (i0 :: ipt).isEmpty = false := rfl
  have hgbt : (b0 :: btt).isEmpty = false := rfl
  unfold matchTail
  rw [hamt]
  simp only [guard_space_cons, drop_space_cons, Bool.false_eq_true, if_false,
    hg2, hg3, hgck, hg4, hg5, hg6, hg7, hg8, hg9, hg10, hg11, hgip, hgbt,
    hd1, hd2, Bool.and_self, if_true, List.drop_length]

theorem matchTail_cons_nonspace {c : Char} {X : Chars} (h : isPySpace c = false) :
    matchTail (c :: X) = none := by
  unfold matchTail
  rw [takeWhile_cons_false h]
  rfl

theorem tryName_skip_tok {t : Chars} (ht : ∀ c ∈ t, isPySpace c = false) :
    ∀ acc X, tryName acc (t ++ X) = tryName (t.reverse ++ acc) X := by
  induction t with
  | nil =>
    intro acc X
    simp
  | cons c cs ih =>
    intro acc X
    have hc : isPySpace c = false := ht c (List.mem_cons_self c cs)
    rw [List.cons_append]
    show tryName acc (c :: (cs ++ X)) = _
    simp only [tryName, matchTail_cons_nonspace hc, not_newline hc]
    rw [ih (fun x hx => ht x (List.mem_cons_of_mem c hx)) (c :: acc) X]
    simp [List.append_assoc]

theorem matchTail_tok_fail {t X : Chars} (htok : Tok t)
    (hnd : ∃ c ∈ t, c.isDigit = false) :
    matchTail (' ' :: (t ++ X)) = none := by
  obtain ⟨c0, tt, rfl⟩ : ∃ c0 tt, t = c0 :: tt := by
    cases t with
    | nil => exact absurd rfl htok.1
    | cons a b => exact ⟨a, b, rfl⟩
  have hc0 : isPySpace c0 = false := htok.2 c0 (List.mem_cons_self c0 tt)
  have hdropsp : ((c0 :: tt) ++ X).dropWhile isPySpace = (c0 :: tt) ++ X := by
    rw [List.cons_append]
    exact dropWhile_cons_false hc0
  have hend : (c0 :: tt).dropWhile Char.isDigit ≠ [] := by
    intro hnil
    have hall := List.dropWhile_eq_nil_iff.mp hnil
    obtain ⟨c, hcmem, hcnd⟩ := hnd
    have := hall c hcmem
    rw [hcnd] at this
    exact Bool.false_ne_true this
  obtain ⟨y, e, hye⟩ : ∃ y e, (c0 :: tt).dropWhile Char.isDigit = y :: e := by
    cases hdw : (c0 :: tt).dropWhile Char.isDigit with
    | nil => exact absurd hdw hend
    | cons a b => exact ⟨a, b, rfl⟩
  have hy_nd : y.isDigit = false := dropWhile_head?_false (by rw [hye]; rfl)
  have hy_mem : y ∈ c0 :: tt := by
    have hsub := (List.dropWhile_sublist (l := c0 :: tt) (p := Char.isDigit)).subset
    apply hsub
    rw [hye]
    exact List.mem_cons_self y e
  have hy_ns : isPySpace y = false := htok.2 y hy_mem
  have hsplit : (c0 :: tt) = (c0 :: tt).takeWhile Char.isDigit ++ (y :: e) := by
    rw [← hye]
    exact (List.takeWhile_append_dropWhile Char.isDigit (c0 :: tt)).symm
  have hdall : ∀ c ∈ (c0 :: tt).takeWhile Char.isDigit, c.isDigit = true :=
    fun c hc => List.mem_takeWhile_imp hc
  have htk : ((c0 :: tt) ++ X).takeWhile Char.isDigit =
      (c0 :: tt).takeWhile Char.isDigit := by
    conv =>
      lhs
      rw [hsplit, List.append_assoc, List.cons_append]
    rw [takeWhile_stop hdall hy_nd]
  have hdk : ((c0 :: tt) ++ X).dropWhile Char.isDigit = y :: (e ++ X) := by
    conv =>
      lhs
      rw [hsplit, List.append_assoc, List.cons_append]
    rw [dropWhile_stop hdall hy_nd]
  unfold matchTail
  simp only [guard_space_cons, drop_space_cons, Bool.false_eq_true, if_false,
    hdropsp, htk, hdk]
  by_cases hempty : ((c0 :: tt).takeWhile Char.isDigit).isEmpty = true
  · rw [if_pos (by rw [hempty]; simp)]
  · rw [Bool.not_eq_true] at hempty
    by_cases hlen : ((c0 :: tt).takeWhile Char.isDigit).length > 10
    · rw [if_pos (by rw [hempty]; simp [hlen])]
    · rw [if_neg (by rw [hempty]; simp [hlen])]
      rw [takeWhile_cons_false hy_ns]
      rfl

theorem tryName_cons_some {acc : Chars} {c : Char} {cs : Chars}
    {ck pt amt bt rest : Chars}
    (h : matchTail (c :: cs) = some (ck, pt, amt, bt, rest)) :
    tryName acc (c :: cs) = some (⟨[], acc.reverse, ck, pt, amt, bt⟩, rest) := by
  simp only [tryName, h]

theorem tryName_construct {T ck pt amt bt rest : Chars}
    (htail : matchTail (' ' :: T) = some (ck, pt, amt, bt, rest)) :
    ∀ toks, toks ≠ [] → (∀ t ∈ toks, NameTok t) →
      ∀ acc, tryName acc (joinTok toks ++ ' ' :: T) =
        some (⟨[], acc.reverse ++ joinTok toks, ck, pt, amt, bt⟩, rest) := by
  intro toks
  induction toks with
  | nil =>
    intro h
    exact absurd rfl h
  | cons t ts ih =>
    intro _ hall acc
    have hnt : NameTok t := hall t (List.mem_cons_self t ts)
    cases ts with
    | nil =>
      rw [show joinTok [t] = t from rfl]
      rw [tryName_skip_tok hnt.1.2 acc (' ' :: T)]
      rw [tryName_cons_some htail]
      simp [List.reverse_append]
    | cons u us =>
      have hu : NameTok u := hall u (List.mem_cons_of_mem t (List.mem_cons_self u us))
      rw [joinTok_cons (s := u :: us) (by simp)]
      rw [List.append_assoc, List.cons_append]
      rw [tryName_skip_tok hnt.1.2 acc _]
      obtain ⟨Xr, hXr⟩ : ∃ Xr, joinTok (u :: us) ++ ' ' :: T = u ++ Xr := by
        cases us with
        | nil => exact ⟨' ' :: T, by rw [show joinTok [u] = u from rfl]⟩
        | cons v vs =>
          refine ⟨' ' :: (joinTok (v :: vs) ++ ' ' :: T), ?_⟩
          rw [joinTok_cons (by simp), List.append_assoc, List.cons_append]
      have hfail : matchTail (' ' :: (joinTok (u :: us) ++ ' ' :: T)) = none := by
        rw [hXr]
        exact matchTail_tok_fail hu.1 hu.2
      show tryName (t.reverse ++ acc) (' ' :: (joinTok (u :: us) ++ ' ' :: T)) = _
      simp only [tryName, hfail]
      rw [show ((' ' == '\n') = false) from by decide]
      simp only [Bool.false_eq_true, if_false]
      rw [ih (by simp) (fun x hx => hall x (List.mem_cons_of_mem t hx))
        (' ' :: (t.reverse ++ acc))]
      simp [List.reverse_cons, List.reverse_append, List.append_assoc]

theorem matchAt_construct {seq : Chars} (h13 : seq.length = 13)
    (hsd : ∀ c ∈ seq, c.isDigit = true)
    {toks : List Chars} (hts : toks ≠ []) (hall : ∀ t ∈ toks, NameTok t)
    {T ck pt amt bt rest : Chars}
    (htail : matchTail (' ' :: T) = some (ck, pt, amt, bt, rest)) :
    matchAt (seq ++ ' ' :: (joinTok toks ++ ' ' :: T)) =
      some (⟨seq, joinTok toks, ck, pt, amt, bt⟩, rest) := by
  have htake : (seq ++ ' ' :: (joinTok toks ++ ' ' :: T)).take 13 = seq :=
    List.take_left' h13
  have hdrop : (seq ++ ' ' :: (joinTok toks ++ ' ' :: T)).drop 13 =
      ' ' :: (joinTok toks ++ ' ' :: T) := List.drop_left' h13
  obtain ⟨j0, jt, hjeq, hj0⟩ :
      ∃ j0 jt, joinTok toks = j0 :: jt ∧ isPySpace j0 = false := by
    have hne := joinTok_ne_nil hts fun t ht => (hall t ht).1
    cases hj : joinTok toks with
    | nil => exact absurd hj hne
    | cons a b =>
      refine ⟨a, b, rfl, ?_⟩
      apply (joinTok_ends hts fun t ht => (hall t ht).1).1 a
      rw [hj]
      rfl
  have hdropsp : (joinTok toks ++ ' ' :: T).dropWhile isPySpace =
      joinTok toks ++ ' ' :: T := by
    rw [hjeq, List.cons_append]
    exact dropWhile_cons_false hj0
  unfold matchAt
  simp only [htake, hdrop, guard_space_cons, drop_space_cons,
    Bool.false_eq_true, if_false, hdropsp]
  rw [if_pos]
  · rw [tryName_construct htail toks hts hall []]
    rfl
  · rw [h13]
    rw [Bool.and_eq_true]
    exact ⟨by decide, List.all_eq_true.mpr hsd⟩

theorem finditerAux_nil : ∀ f, finditerAux f [] = [] := by
  intro f
  cases f <;> rfl

theorem finditer_of_matchAt_nil {s : Chars} {m : LineMatch}
    (h : matchAt s = some (m, [])) (hs : s ≠ []) :
    line_pattern_finditer s = [m] := by
  unfold line_pattern_finditer
  cases s with
  | nil => exact absurd rfl hs
  | cons c cs =>
    rw [List.length_cons]
    simp only [finditerAux, h]
    rw [finditerAux_nil]

theorem matchPayType_sound {s pt rest : Chars} (h : matchPayType s = some (pt, rest)) :
    pt ∈ payTypes := by
  unfold matchPayType at h
  split_ifs at h <;>
    simp only [Option.some.injEq, Prod.mk.injEq] at h <;>
    (obtain ⟨h1, _⟩ := h; subst h1; simp [payTypes])

theorem matchTail_eq (s : Chars) :
    matchTail s =
      if (s.takeWhile isPySpace).isEmpty = true then none
      else
        if (((s.dropWhile isPySpace).takeWhile Char.isDigit).isEmpty ||
            decide (((s.dropWhile isPySpace).takeWhile Char.isDigit).length > 10)) =
            true then none
        else
          if (((s.dropWhile isPySpace).dropWhile Char.isDigit).takeWhile
              isPySpace).isEmpty = true then none
          else
            match matchPayType (((s.dropWhile isPySpace).dropWhile
                Char.isDigit).dropWhile isPySpace) with
            | none => none
            | some (pt, s4) =>
              if (s4.takeWhile isPySpace).isEmpty = true then none
              else
                if ((s4.dropWhile isPySpace).takeWhile Char.isDigit).isEmpty = true then
                  none
                else
                  match (s4.dropWhile isPySpace).dropWhile Char.isDigit with
                  | '.' :: d1 :: d2 :: s6 =>
                    if (d1.isDigit && d2.isDigit) = true then
                      if (s6.takeWhile isPySpace).isEmpty = true then none
                      else
                        if ((s6.dropWhile isPySpace).takeWhile
                            Char.isDigit).isEmpty = true then none
                        else
                          some ((s.dropWhile isPySpace).takeWhile Char.isDigit, pt,
                            (s4.dropWhile isPySpace).takeWhile Char.isDigit ++
                              '.' :: [d1, d2],
                            (s6.dropWhile isPySpace).takeWhile Char.isDigit,
                            (s6.dropWhile isPySpace).drop
                              ((s6.dropWhile isPySpace).takeWhile
                                Char.isDigit).length)
                    else none
                  | _ => none := rfl

theorem matchTail_sound {s : Chars} {ck pt amt bt rest : Chars}
    (h : matchTail s = some (ck, pt, amt, bt, rest)) :
    pt ∈ payTypes ∧
      (∃ ip d1 d2, amt = ip ++ '.' :: [d1, d2] ∧ ip ≠ [] ∧
        (∀ c ∈ ip, c.isDigit = true) ∧ d1.isDigit = true ∧ d2.isDigit = true) := by
  rw [matchTail_eq] at h
  split at h
  · exact absurd h (by simp)
  split at h
  · exact absurd h (by simp)
  split at h
  · exact absurd h (by simp)
  split at h
  · exact absurd h (by simp)
  rename_i pt' s4 heqPT
  split at h
  · exact absurd h (by simp)
  split at h
  · exact absurd h (by simp)
  rename_i hipne
  split at h
  case _ d1 d2 s6 heqDrop =>
    split at h
    case isFalse => exact absurd h (by simp)
    case isTrue hdd =>
      split at h
      · exact absurd h (by simp)
      split at h
      · exact absurd h (by simp)
      simp only [Option.some.injEq, Prod.mk.injEq] at h
      obtain ⟨h1, h2, h3, h4, h5⟩ := h
      constructor
      · rw [← h2]
        exact matchPayType_sound heqPT
      · refine ⟨(s4.dropWhile isPySpace).takeWhile Char.isDigit, d1, d2,
          h3.symm, ?_, ?_, ?_, ?_⟩
        · intro hnil
          rw [← List.isEmpty_iff] at hnil
          exact hipne (by rw [hnil])
        · intro c hc
          exact List.mem_takeWhile_imp hc
        · have hdd2 : d1.isDigit = true ∧ d2.isDigit = true := by
            simp only [Bool.and_eq_true] at hdd
            exact hdd
          exact hdd2.1
        · have hdd2 : d1.isDigit = true ∧ d2.isDigit = true := by
            simp only [Bool.and_eq_true] at hdd
            exact hdd
          exact hdd2.2
  case _ x hne => exact absurd h (by simp)

theorem tryName_sound {s : Chars} {acc : Chars} {m : LineMatch} {rest : Chars}
    (h : tryName acc s = some (m, rest)) :
    ∃ pre suf, s = pre ++ suf ∧ m.nameG = acc.reverse ++ pre ∧ m.seqG = [] ∧
      matchTail suf = some (m.checkG, m.payG, m.amountG, m.batchG, rest) := by
  induction s generalizing acc with
  | nil =>
    have hmt : matchTail [] = none := rfl
    simp [tryName, hmt] at h
  | cons c cs ih =>
    simp only [tryName] at h
    cases hmt : matchTail (c :: cs) with
    | some r =>
      obtain ⟨ck, pt, amt, bt, rst⟩ := r
      rw [hmt] at h
      simp only [Option.some.injEq, Prod.mk.injEq] at h
      obtain ⟨hm, hrest⟩ := h
      refine ⟨[], c :: cs, by simp, ?_, ?_, ?_⟩
      · rw [← hm]
        simp
      · rw [← hm]
      · rw [← hm, ← hrest]
        exact hmt
    | none =>
      rw [hmt] at h
      simp only at h
      by_cases hnl : (c == '\n') = true
      · rw [if_pos hnl] at h
        exact absurd h (by simp)
      · rw [Bool.not_eq_true] at hnl
        rw [hnl] at h
        simp only [Bool.false_eq_true, if_false] at h
        obtain ⟨pre, suf, hs, hname, hseq, hmt2⟩ := ih h
        refine ⟨c :: pre, suf, by rw [hs]; rfl, ?_, hseq, hmt2⟩
        rw [hname]
        simp

theorem matchAt_eq (s : Chars) :
    matchAt s =
      if (decide ((s.take 13).length = 13) && (s.take 13).all Char.isDigit) = true then
        if ((s.drop 13).takeWhile isPySpace).isEmpty = true then none
        else
          (tryName [] ((s.drop 13).dropWhile isPySpace)).map fun p =>
            ({ p.1 with seqG := s.take 13 }, p.2)
      else none := rfl

theorem matchAt_sound {s : Chars} {m : LineMatch} {rest : Chars}
    (h : matchAt s = some (m, rest)) :
    pyStrip m.nameG ≠ [] ∧ m.payG ∈ payTypes ∧
      (∃ ip d1 d2, m.amountG = ip ++ '.' :: [d1, d2] ∧ ip ≠ [] ∧
        (∀ c ∈ ip, c.isDigit = true) ∧ d1.isDigit = true ∧ d2.isDigit = true) := by
  rw [matchAt_eq] at h
  split at h
  case isFalse => exact absurd h (by simp)
  case isTrue hseq =>
    split at h
    case isTrue => exact absurd h (by simp)
    case isFalse hsp =>
      cases hty : tryName [] ((s.drop 13).dropWhile isPySpace) with
      | none =>
        rw [hty] at h
        exact absurd h (by simp)
      | some p =>
        obtain ⟨m0, r0⟩ := p
        rw [hty] at h
        simp only [Option.map_some, Option.some.injEq, Prod.mk.injEq] at h
        obtain ⟨rfl, rfl⟩ := h
        obtain ⟨pre, suf, hX, hname, _, hmt⟩ := tryName_sound hty
        have hsound := matchTail_sound hmt
        have hpre_ne : pre ≠ [] := by
          intro hnil
          subst hnil
          rw [List.nil_append] at hX
          rw [← hX] at hmt
          cases hXc : (s.drop 13).dropWhile isPySpace with
          | nil =>
            rw [hXc] at hmt
            rw [show matchTail [] = none from rfl] at hmt
            exact absurd hmt (by simp)
          | cons c cs =>
            have hcns : isPySpace c = false :=
              dropWhile_head?_false (l := s.drop 13) (by rw [hXc]; rfl)
            rw [hXc, matchTail_cons_nonspace hcns] at hmt
            exact absurd hmt (by simp)
        obtain ⟨p0, pre', rfl⟩ : ∃ p0 pre', pre = p0 :: pre' := by
          cases pre with
          | nil => exact absurd rfl hpre_ne
          | cons a b => exact ⟨a, b, rfl⟩
        have hp0 : isPySpace p0 = false := by
          apply dropWhile_head?_false (l := s.drop 13) (p := isPySpace)
          rw [hX]
          rfl
        have hname0 : m0.nameG = p0 :: pre' := by
          rw [hname]
          simp
        constructor
        · show pyStrip m0.nameG ≠ []
          rw [hname0]
          exact pyStrip_ne_nil (l := p0 :: pre') rfl hp0
        · exact ⟨hsound.1, hsound.2⟩

theorem finditerAux_mem {f : Nat} {s : Chars} {m : LineMatch}
    (h : m ∈ finditerAux f s) : ∃ s0 rest, matchAt s0 = some (m, rest) := by
  induction f generalizing s with
  | zero => simp [finditerAux] at h
  | succ f ih =>
    cases s with
    | nil => simp [finditerAux] at h
    | cons c cs =>
      simp only [finditerAux] at h
      cases hma : matchAt (c :: cs) with
      | some p =>
        obtain ⟨m0, rest0⟩ := p
        rw [hma] at h
        simp only at h
        rcases List.mem_cons.mp h with h1 | h2
        · subst h1
          exact ⟨c :: cs, rest0, hma⟩
        · exact ih h2
      | none =>
        rw [hma] at h
        simp only at h
        exact ih h

theorem extract_rows_from_lines_flatten (src : Chars) (L : List Chars) :
    extract_rows_from_lines src L = (L.map (extract_rows_from_line src)).flatten := by
  induction L with
  | nil => rfl
  | cons l ls ih =>
    rw [extract_rows_from_lines, List.map_cons, List.flatten_cons, ih]

/-! ### lemmas about the GN label detector -/

theorem gnAt_isSome (r : Chars) :
    (gnAt r).isSome = (amendSepDigit r || amendNoSepDigit r) := by
  cases r with
  | nil => rfl
  | cons a rs =>
    cases rs with
    | nil =>
      show ((gnSepDigit [a]).orElse fun _ => gnNoSep [a]).isSome = _
      by_cases h : (digit17 a && boundaryAfter ([] : Chars)) = true <;>
        simp [gnSepDigit, gnNoSep, amendSepDigit, amendNoSepDigit, Option.orElse, h]
    | cons b rs2 =>
      show ((gnSepDigit (a :: b :: rs2)).orElse fun _ => gnNoSep (a :: b :: rs2)).isSome = _
      by_cases h1 : ((a == '-' || a == ' ') && digit17 b && boundaryAfter rs2) = true
      · simp [gnSepDigit, gnNoSep, amendSepDigit, amendNoSepDigit, Option.orElse, h1]
      · by_cases h2 : (digit17 a && boundaryAfter (b :: rs2)) = true <;>
          simp [gnSepDigit, gnNoSep, amendSepDigit, amendNoSepDigit, Option.orElse, h1, h2]

theorem gnTryW_isSome (rest : Chars) :
    ∀ w, (gnTryW rest w).isSome =
      ((List.range (w + 1)).any fun k =>
        amendSepDigit (rest.drop k) || amendNoSepDigit (rest.drop k)) := by
  intro w
  induction w with
  | zero =>
    show (gnAt rest).isSome = _
    rw [gnAt_isSome, show List.range 1 = [0] from rfl]
    simp
  | succ w ih =>
    cases hga : gnAt (rest.drop (w + 1)) with
    | some d =>
      have hsome : (amendSepDigit (rest.drop (w + 1)) ||
          amendNoSepDigit (rest.drop (w + 1))) = true := by
        rw [← gnAt_isSome, hga]
        rfl
      simp only [gnTryW, hga]
      conv_rhs => rw [List.range_succ]
      rw [List.any_append]
      simp [hsome]
    | none =>
      have hnone : (amendSepDigit (rest.drop (w + 1)) ||
          amendNoSepDigit (rest.drop (w + 1))) = false := by
        rw [← gnAt_isSome, hga]
        rfl
      simp only [gnTryW, hga]
      conv_rhs => rw [List.range_succ]
      rw [List.any_append, ih]
      simp [hnone]

theorem amendGNAt_cons (g n : Char) (rest : Chars) :
    amendGNAt (g :: n :: rest) =
      ((g == 'G' || g == 'g') && (n == 'N' || n == 'n') &&
        ((List.range ((rest.takeWhile isPySpace).length + 1)).any fun w =>
          amendSepDigit (rest.drop w) || amendNoSepDigit (rest.drop w))) := rfl

theorem gnHere_isSome (l : Chars) : (gnHere l).isSome = amendGNAt l := by
  cases l with
  | nil => rfl
  | cons g rs =>
    cases rs with
    | nil => rfl
    | cons n rest =>
      show (if (g == 'G' || g == 'g') && (n == 'N' || n == 'n') then
          gnTryW rest (rest.takeWhile isPySpace).length else none).isSome = _
      by_cases h : ((g == 'G' || g == 'g') && (n == 'N' || n == 'n')) = true
      · rw [if_pos h, gnTryW_isSome, amendGNAt_cons, h]
        simp
      · rw [Bool.not_eq_true] at h
        rw [if_neg (by rw [h]; exact Bool.false_ne_true), amendGNAt_cons, h]
        simp

theorem any_congr_mem {α : Type} {l : List α} {f g : α → Bool}
    (h : ∀ x ∈ l, f x = g x) : l.any f = l.any g := by
  induction l with
  | nil => rfl
  | cons a as ih =>
    simp only [List.any_cons, h a (List.mem_cons_self a as)]
    rw [ih fun x hx => h x (List.mem_cons_of_mem a hx)]

theorem any_shift {n : Nat} {f g : Nat → Bool}
    (hcong : ∀ p ∈ List.range n, f (p + 1) = g p) :
    ((List.range n).map (fun p => p + 1)).any f = (List.range n).any g := by
  rw [List.any_map]
  exact any_congr_mem hcong

theorem gnSearch_isSome (l : Chars) : ∀ b : Bool,
    (gnSearch b l).isSome =
      ((List.range l.length).any fun p =>
        (if p = 0 then !b else !(isWordChar (l.getD (p - 1) ' '))) &&
          amendGNAt (l.drop p)) := by
  induction l with
  | nil =>
    intro b
    simp [gnSearch]
  | cons c cs ih =>
    intro b
    have hcong : ∀ p ∈ List.range cs.length,
        ((if p + 1 = 0 then !b else !(isWordChar ((c :: cs).getD (p + 1 - 1) ' '))) &&
          amendGNAt ((c :: cs).drop (p + 1))) =
        ((if p = 0 then !(isWordChar c) else !(isWordChar (cs.getD (p - 1) ' '))) &&
          amendGNAt (cs.drop p)) := by
      intro p _
      rw [if_neg (by omega)]
      congr 2
      cases p with
      | zero => rfl
      | succ q => rfl
    rw [List.length_cons, List.range_succ_eq_map, List.any_cons, any_shift hcong,
      if_pos rfl, List.drop_zero]
    cases hb : b with
    | true =>
      have hstep : gnSearch true (c :: cs) = gnSearch (isWordChar c) cs := rfl
      rw [hstep, ih (isWordChar c)]
      simp
    | false =>
      have hstep : gnSearch false (c :: cs) =
          match gnHere (c :: cs) with
          | some d => some ['G', 'N', d]
          | none => gnSearch (isWordChar c) cs := rfl
      rw [hstep]
      cases hgh : gnHere (c :: cs) with
      | some d =>
        have htrue : amendGNAt (c :: cs) = true := by
          rw [← gnHere_isSome, hgh]
          rfl
        simp [htrue]
      | none =>
        have hfalse : amendGNAt (c :: cs) = false := by
          rw [← gnHere_isSome, hgh]
          rfl
        simp only [hfalse]
        show (gnSearch (isWordChar c) cs).isSome = _
        rw [ih (isWordChar c)]
        simp

theorem and_eq_true_iff {a b : Bool} : (a && b) = true ↔ a = true ∧ b = true := by
  simp

theorem detect_isSome_amended (l : Chars) :
    (detect_gn_label_on_page l).isSome = amendedGNContains l := by
  unfold detect_gn_label_on_page amendedGNContains
  rw [gnSearch_isSome l false]
  apply any_congr_mem
  intro p _
  congr 1
  unfold boundaryBeforeAt
  cases p with
  | zero => simp
  | succ q => simp

theorem gnAt_digit {r : Chars} {d : Char} (h : gnAt r = some d) : digit17 d = true := by
  unfold gnAt gnSepDigit gnNoSep at h
  cases r with
  | nil => simp [Option.orElse] at h
  | cons a rs =>
    cases rs with
    | nil =>
      by_cases hc : (digit17 a && boundaryAfter ([] : Chars)) = true
      · simp only [Option.orElse, hc, if_true] at h
        simp at h
        subst h
        exact (and_eq_true_iff.mp hc).1
      · simp [Option.orElse, hc] at h
    | cons b rs2 =>
      by_cases h1 : ((a == '-' || a == ' ') && digit17 b && boundaryAfter rs2) = true
      · simp only [Option.orElse, h1, if_true] at h
        simp at h
        subst h
        exact (and_eq_true_iff.mp (and_eq_true_iff.mp h1).1).2
      · by_cases h2 : (digit17 a && boundaryAfter (b :: rs2)) = true
        · simp only [Option.orElse, h1, h2] at h
          simp [h1] at h
          subst h
          exact (and_eq_true_iff.mp h2).1
        · simp [Option.orElse, h1, h2] at h

theorem gnTryW_digit {rest : Chars} {d : Char} :
    ∀ w, gnTryW rest w = some d → digit17 d = true := by
  intro w
  induction w with
  | zero =>
    intro h
    exact gnAt_digit h
  | succ w ih =>
    intro h
    simp only [gnTryW] at h
    cases hga : gnAt (rest.drop (w + 1)) with
    | some e =>
      rw [hga] at h
      simp only [Option.some.injEq] at h
      subst h
      exact gnAt_digit hga
    | none =>
      rw [hga] at h
      exact ih h

theorem gnHere_digit {l : Chars} {d : Char} (h : gnHere l = some d) :
    digit17 d = true := by
  cases l with
  | nil => simp [gnHere] at h
  | cons g rs =>
    cases rs with
    | nil => simp [gnHere] at h
    | cons n rest =>
      by_cases hc : ((g == 'G' || g == 'g') && (n == 'N' || n == 'n')) = true
      · have h2 : gnTryW rest (rest.takeWhile isPySpace).length = some d := by
          have hh : gnHere (g :: n :: rest) =
              if (g == 'G' || g == 'g') && (n == 'N' || n == 'n') then
                gnTryW rest (rest.takeWhile isPySpace).length
              else none := rfl
          rw [hh, if_pos hc] at h
          exact h
        exact gnTryW_digit _ h2
      · have hh : gnHere (g :: n :: rest) =
            if (g == 'G' || g == 'g') && (n == 'N' || n == 'n') then
              gnTryW rest (rest.takeWhile isPySpace).length
            else none := rfl
        rw [hh, if_neg (by rw [Bool.not_eq_true] at hc; rw [hc]; exact
          Bool.false_ne_true)] at h
        exact absurd h (by simp)

theorem gnSearch_shape {l : Chars} : ∀ (b : Bool) (s : Chars), gnSearch b l = some s →
    ∃ d, digit17 d = true ∧ s = ['G', 'N', d] := by
  induction l with
  | nil =>
    intro b s h
    simp [gnSearch] at h
  | cons c cs ih =>
    intro b s h
    cases hb : b with
    | true =>
      rw [hb] at h
      exact ih (isWordChar c) s h
    | false =>
      rw [hb] at h
      have h2 : (match gnHere (c :: cs) with
          | some d => some ['G', 'N', d]
          | none => gnSearch (isWordChar c) cs) = some s := h
      cases hgh : gnHere (c :: cs) with
      | some d =>
        rw [hgh] at h2
        simp only [Option.some.injEq] at h2
        exact ⟨d, gnHere_digit hgh, h2.symm⟩
      | none =>
        rw [hgh] at h2
        exact ih (isWordChar c) s h2

theorem bookLabel_from_detector {src line : Chars} {r : Row}
    (h : r ∈ extract_rows_from_line src line) :
    r.bookLabel = (detect_gn_label_on_page (pyNormalize line)).getD ['G', 'N', '1'] := by
  simp only [extract_rows_from_line, List.mem_map] at h
  obtain ⟨m, _, rfl⟩ := h
  rfl

/-! ### lemmas about amounts and the lookup enrichment -/

theorem beq_dot_false {c : Char} (h : c.isDigit = true) : (c == '.') = false := by
  cases hc : c == '.' with
  | false => rfl
  | true =>
    rw [beq_iff_eq] at hc
    subst hc
    exact absurd h (by decide)

theorem parseAmount_shape {ip : Chars} {d1 d2 : Char}
    (hipd : ∀ c ∈ ip, c.isDigit = true) :
    parseAmount (ip ++ '.' :: [d1, d2]) =
      ((digitsVal ip * 100 + digitsVal [d1, d2] : ℕ) : ℚ) / 100 := by
  unfold parseAmount
  have h1 : (ip ++ '.' :: [d1, d2]).takeWhile (fun c => !(c == '.')) = ip :=
    takeWhile_stop (fun c hc => by rw [beq_dot_false (hipd c hc)]; rfl) (by rfl)
  have h2 : (ip ++ '.' :: [d1, d2]).dropWhile (fun c => !(c == '.')) = '.' :: [d1, d2] :=
    dropWhile_stop (fun c hc => by rw [beq_dot_false (hipd c hc)]; rfl) (by rfl)
  rw [h1, h2]
  rfl

theorem amount_nospace {ip : Chars} {d1 d2 : Char}
    (hipd : ∀ c ∈ ip, c.isDigit = true) (hd1 : d1.isDigit = true)
    (hd2 : d2.isDigit = true) :
    ∀ c ∈ ip ++ '.' :: [d1, d2], isPySpace c = false := by
  intro c hc
  rcases List.mem_append.mp hc with h | h
  · exact isDigit_not_space (hipd c h)
  · rcases List.mem_cons.mp h with h1 | h1
    · subst h1
      decide
    · rcases List.mem_cons.mp h1 with h2 | h2
      · subst h2
        exact isDigit_not_space hd1
      · rcases List.mem_cons.mp h2 with h3 | h3
        · subst h3
          exact isDigit_not_space hd2
        · simp at h3

theorem find?_eq_head_filter {α : Type} (p : α → Bool) (l : List α) :
    l.find? p = (l.filter p).head? := by
  induction l with
  | nil => rfl
  | cons a as ih =>
    by_cases h : p a = true
    · rw [List.find?_cons_of_pos _ h, List.filter_cons_of_pos h, List.head?_cons]
    · rw [List.find?_cons_of_neg _ h, List.filter_cons_of_neg h, ih]

theorem length_filter_key_le_one {lu : List LookupEntry} (h : uniqueKeys lu) (k : Chars) :
    (lu.filter fun x => x.abbrev_key == k).length ≤ 1 := by
  induction lu with
  | nil => simp
  | cons a as ih =>
    unfold uniqueKeys at h ih
    rw [List.map_cons, List.nodup_cons] at h
    by_cases hp : (a.abbrev_key == k) = true
    · rw [List.filter_cons_of_pos (p := fun (x : LookupEntry) => x.abbrev_key == k) hp]
      have hnil : as.filter (fun x => x.abbrev_key == k) = [] := by
        rw [List.filter_eq_nil_iff]
        intro x hx hpx
        rw [beq_iff_eq] at hp hpx
        apply h.1
        rw [hp, ← hpx]
        exact List.mem_map_of_mem LookupEntry.abbrev_key hx
      rw [hnil]
      simp
    · rw [List.filter_cons_of_neg (p := fun (x : LookupEntry) => x.abbrev_key == k) hp]
      exact ih h.2

theorem mergeEnrich_eq_enrichRow {lu : List LookupEntry} (h : uniqueKeys lu) (r : Row) :
    mergeEnrich lu r = [enrichRow lu r] := by
  unfold mergeEnrich enrichRow
  rw [find?_eq_head_filter]
  cases hf : lu.filter (fun e => e.abbrev_key == normalize_name_for_lookup r.fullName) with
  | nil => simp
  | cons e es =>
    have hes : es = [] := by
      have hlen := length_filter_key_le_one h (normalize_name_for_lookup r.fullName)
      rw [hf] at hlen
      simp only [List.length_cons] at hlen
      cases es with
      | nil => rfl
      | cons f fs => simp at hlen
    subst hes
    simp

theorem flatMap_singleton_eq_map {α : Type} {f : α → List α} {g : α → α}
    (hfg : ∀ r, f r = [g r]) : ∀ l : List α, l.flatMap f = l.map g := by
  intro l
  induction l with
  | nil => rfl
  | cons a as ih => simp [List.flatMap_cons, hfg a, ih]

theorem apply_some_eq (df : List Row) (lu : List LookupEntry) :
    apply_account_lookup df (some lu) =
      if lu.isEmpty || df.isEmpty then df else df.flatMap (mergeEnrich lu) := rfl

theorem apply_account_lookup_map {lu : List LookupEntry} {df : List Row}
    (h : uniqueKeys lu) (hne : lu ≠ []) :
    apply_account_lookup df (some lu) = df.map (enrichRow lu) := by
  rw [apply_some_eq]
  cases hdf : df with
  | nil =>
    cases lu with
    | nil => exact absurd rfl hne
    | cons e es => simp
  | cons r rs =>
    rw [if_neg]
    · exact flatMap_singleton_eq_map (mergeEnrich_eq_enrichRow h) (r :: rs)
    · cases lu with
      | nil => exact absurd rfl hne
      | cons e es => simp

theorem enrichRow_core {lu : List LookupEntry} (r : Row) :
    (enrichRow lu r).fullName = r.fullName ∧ (enrichRow lu r).seq = r.seq ∧
      (enrichRow lu r).paymentAmount = r.paymentAmount ∧
      (enrichRow lu r).pledgeAmount = r.pledgeAmount ∧
      (enrichRow lu r).paymentType = r.paymentType ∧
      (enrichRow lu r).checkNumber = r.checkNumber ∧
      (enrichRow lu r).bookLabel = r.bookLabel ∧
      (enrichRow lu r).percentage = r.percentage ∧
      (enrichRow lu r).sourceFile = r.sourceFile := by
  unfold enrichRow
  cases lu.find? fun e => e.abbrev_key == normalize_name_for_lookup r.fullName with
  | none => exact ⟨rfl, rfl, rfl, rfl, rfl, rfl, rfl, rfl, rfl⟩
  | some e => exact ⟨rfl, rfl, rfl, rfl, rfl, rfl, rfl, rfl, rfl⟩

theorem enrichRow_account {lu : List LookupEntry} (r : Row) :
    (r.accountNumber ≠ [] → (enrichRow lu r).accountNumber = r.accountNumber) ∧
      (r.accountNumber = [] → (enrichRow lu r).accountNumber =
        (((lu.find? fun e =>
            e.abbrev_key == normalize_name_for_lookup r.fullName).bind
          LookupEntry.indAccountNumber).getD [])) := by
  unfold enrichRow
  cases hf : lu.find? fun e => e.abbrev_key == normalize_name_for_lookup r.fullName with
  | none =>
    constructor
    · intro _
      rfl
    · intro hnil
      rw [hnil]
      rfl
  | some e =>
    constructor
    · intro hne
      cases hacct : r.accountNumber with
      | nil => exact absurd hacct hne
      | cons x xs =>
        show (match (x :: xs : Chars), e.indAccountNumber with
          | [], some a => a
          | acc, _ => acc) = x :: xs
        cases e.indAccountNumber <;> rfl
    · intro hnil
      show (match r.accountNumber, e.indAccountNumber with
        | [], some a => a
        | acc, _ => acc) = (e.indAccountNumber).getD []
      rw [hnil]
      cases e.indAccountNumber <;> rfl

/-! ### lemmas about exact-duplicate removal -/

theorem enumFrom_succ {α : Type} (l : List α) :
    ∀ n, l.enumFrom (n + 1) = (l.enumFrom n).map fun p => (p.1 + 1, p.2) := by
  induction l with
  | nil => intro n; rfl
  | cons a as ih =>
    intro n
    rw [List.enumFrom_cons, List.enumFrom_cons, List.map_cons, ih (n + 1)]

theorem dropDupAux_cons {α : Type} [DecidableEq α] (seen : List α) (x : α)
    (xs : List α) :
    dropDupAux seen (x :: xs) =
      if x ∈ seen then dropDupAux seen xs else x :: dropDupAux (x :: seen) xs := rfl

theorem snd_comp_shift {α : Type} :
    (Prod.snd ∘ fun p : Nat × α => (p.1 + 1, p.2)) = (Prod.snd : Nat × α → α) :=
  funext fun _ => rfl

theorem dropDupAux_eq {α : Type} [DecidableEq α] :
    ∀ (l seen : List α),
      dropDupAux seen l =
        ((l.enum.filter fun p => decide (p.2 ∉ seen) &&
          ((l.take p.1).all fun q => decide (q ≠ p.2))).map Prod.snd) := by
  intro l
  induction l with
  | nil => intro seen; rfl
  | cons x xs ih =>
    intro seen
    have henum : (x :: xs).enum = (0, x) :: (xs.enum.map fun p => (p.1 + 1, p.2)) := by
      show (x :: xs).enumFrom 0 = _
      rw [List.enumFrom_cons, enumFrom_succ]
      rfl
    rw [henum, List.filter_cons]
    have hhead : (decide (x ∉ seen) &&
        (((x :: xs).take 0).all fun q => decide (q ≠ x))) = decide (x ∉ seen) := by
      simp
    rw [hhead]
    by_cases hmem : x ∈ seen
    · rw [show decide (x ∉ seen) = false from by simp [hmem]]
      simp only [Bool.false_eq_true, if_false]
      rw [List.filter_map, List.map_map, snd_comp_shift]
      rw [dropDupAux_cons, if_pos hmem, ih seen]
      congr 1
      apply List.filter_congr
      intro p _
      show (decide (p.2 ∉ seen) && ((xs.take p.1).all fun q => decide (q ≠ p.2))) =
        (decide (p.2 ∉ seen) &&
          (((x :: xs).take (p.1 + 1)).all fun q => decide (q ≠ p.2)))
      rw [List.take_succ_cons, List.all_cons]
      by_cases hps : p.2 ∈ seen
      · rw [show decide (p.2 ∉ seen) = false from by simp [hps]]
        rfl
      · rw [show decide (p.2 ∉ seen) = true from by simp [hps]]
        have hne2 : x ≠ p.2 := fun hcon => hps (hcon ▸ hmem)
        rw [show decide (x ≠ p.2) = true from by simp [hne2]]
        rfl
    · rw [show decide (x ∉ seen) = true from by simp [hmem]]
      simp only [if_true]
      rw [List.filter_map, List.map_cons, List.map_map, snd_comp_shift]
      rw [dropDupAux_cons, if_neg hmem, ih (x :: seen)]
      show x :: _ = x :: _
      congr 1
      congr 1
      apply List.filter_congr
      intro p _
      show (decide (p.2 ∉ x :: seen) && ((xs.take p.1).all fun q => decide (q ≠ p.2))) =
        (decide (p.2 ∉ seen) &&
          (((x :: xs).take (p.1 + 1)).all fun q => decide (q ≠ p.2)))
      rw [List.take_succ_cons, List.all_cons]
      have hsplit : decide (p.2 ∉ x :: seen) =
          (decide (p.2 ≠ x) && decide (p.2 ∉ seen)) := by
        by_cases h1 : p.2 = x
        · subst h1
          simp
        · by_cases h2 : p.2 ∈ seen <;> simp [h1, h2]
      rw [hsplit]
      have hcomm : decide (x ≠ p.2) = decide (p.2 ≠ x) := decide_eq_decide.mpr ne_comm
      rw [hcomm]
      cases hd1 : decide (p.2 ≠ x) <;> cases hd2 : decide (p.2 ∉ seen) <;>
        cases hd3 : ((xs.take p.1).all fun q => decide (q ≠ p.2)) <;> rfl

/-! ### uniqueness of the deduplicated lookup keys -/

theorem dedupByKeyAux_unique : ∀ (l : List LookupEntry) (seen : List Chars),
    (∀ e ∈ dedupByKeyAux seen l, e.abbrev_key ∉ seen) ∧
      ((dedupByKeyAux seen l).map LookupEntry.abbrev_key).Nodup := by
  intro l
  induction l with
  | nil =>
    intro seen
    constructor
    · intro e he
      simp [dedupByKeyAux] at he
    · simp [dedupByKeyAux]
  | cons e es ih =>
    intro seen
    have heq : dedupByKeyAux seen (e :: es) =
        if e.abbrev_key ∈ seen then dedupByKeyAux seen es
        else e :: dedupByKeyAux (e.abbrev_key :: seen) es := rfl
    by_cases hmem : e.abbrev_key ∈ seen
    · rw [heq, if_pos hmem]
      exact ih seen
    · rw [heq, if_neg hmem]
      constructor
      · intro x hx
        rcases List.mem_cons.mp hx with h1 | h2
        · rw [h1]
          exact hmem
        · intro hxs
          exact (ih (e.abbrev_key :: seen)).1 x h2 (List.mem_cons_of_mem _ hxs)
      · rw [List.map_cons]
        apply List.nodup_cons.mpr
        constructor
        · intro hk
          obtain ⟨x, hx, hkx⟩ := List.mem_map.mp hk
          exact (ih (e.abbrev_key :: seen)).1 x hx
            (by rw [hkx]; exact List.mem_cons_self _ _)
        · exact (ih (e.abbrev_key :: seen)).2

theorem drop_duplicates_by_key_unique (l : List LookupEntry) :
    uniqueKeys (drop_duplicates_by_key l) := by
  unfold uniqueKeys drop_duplicates_by_key
  exact (dedupByKeyAux_unique l []).2

/-! ### the claims -/

/-- C2: the claim says a lookup table missing required columns is skipped
with only a warning and no input raises an exception; but on a table that
has exactly the two documented columns (fullName, INDACCOUNTNUMBER) the
required-column check passes and `load_account_lookup` then unconditionally
indexes the absent INDFIRSTNAME column, raising KeyError — the run aborts
instead of skipping enrichment. -/
theorem lookup_documented_columns_keyerror :
    load_account_lookup (some ⟨[("fullName".toList, [some "FREDERICK HUSSEY".toList]),
        ("INDACCOUNTNUMBER".toList, [some "12345".toList])]⟩) =
      Except.error "KeyError: INDFIRSTNAME".toList := by
  rfl

/-- C3 counterexample: for first name "A" and the multi-token last name
"VAN DYK", the key built from the lookup table's columns keeps the whole
last name ("A VAN DYK"), while the name normalizer applied to the
concatenated full name keeps only the final whitespace token ("A DYK"), so
the claimed consistency of the two derivations fails. -/
theorem abbrev_key_derivations_disagree :
    lookup_abbrev_key "A".toList "VAN DYK".toList ≠
      normalize_name_for_lookup ("A".toList ++ ' ' :: "VAN DYK".toList) := by
  decide

/-- C3 (amended): when the first-name and last-name cells are each a single
nonempty whitespace-free token, the key built from the lookup table's
columns equals the key the name normalizer derives from the concatenated
full name. -/
theorem abbrev_key_derivations_agree (first last : Chars)
    (h1 : Tok first) (h2 : Tok last) :
    lookup_abbrev_key first last =
      normalize_name_for_lookup (first ++ ' ' :: last) := by
  have hu1 : Tok (first.map Char.toUpper) := tok_map_upper h1
  have hu2 : Tok (last.map Char.toUpper) := tok_map_upper h2
  have hmapapp : (first ++ ' ' :: last).map Char.toUpper =
      first.map Char.toUpper ++ ' ' :: last.map Char.toUpper := by
    rw [List.map_append, List.map_cons, toUpper_space]
  have hjoin : first.map Char.toUpper ++ ' ' :: last.map Char.toUpper =
      joinTok [first.map Char.toUpper, last.map Char.toUpper] := rfl
  have hstr : pyStrip (first.map Char.toUpper ++ ' ' :: last.map Char.toUpper) =
      first.map Char.toUpper ++ ' ' :: last.map Char.toUpper := by
    rw [hjoin]
    apply pyStrip_joinTok (by simp)
    intro t ht
    rcases List.mem_cons.mp ht with hh | hh
    · rw [hh]
      exact hu1
    · rcases List.mem_cons.mp hh with hh2 | hh2
      · rw [hh2]
        exact hu2
      · exact absurd hh2 (List.not_mem_nil t)
  have hsplit : pySplit (first.map Char.toUpper ++ ' ' :: last.map Char.toUpper) =
      [first.map Char.toUpper, last.map Char.toUpper] := by
    rw [pySplit_sep hu1, pySplit_single hu2]
  have he : normalize_name_for_lookup (first ++ ' ' :: last) =
      (first.map Char.toUpper).take 1 ++ ' ' ::
        (([first.map Char.toUpper, last.map Char.toUpper] : List Chars).getLastD []) := by
    apply normalize_eq_long
    rw [hmapapp, hstr, hsplit]
  rw [he]
  show (first.take 1).map Char.toUpper ++ ' ' :: pyStrip (last.map Char.toUpper) = _
  rw [pyStrip_nospace hu2.2, List.map_take]
  rfl

/-- C3 amended witness: the two derivations agree at the concrete token
pair "Frederick"/"Hussey". -/
theorem abbrev_key_derivations_agree_witness :
    Tok "Frederick".toList ∧ Tok "Hussey".toList ∧
      lookup_abbrev_key "Frederick".toList "Hussey".toList =
        normalize_name_for_lookup ("Frederick".toList ++ ' ' :: "Hussey".toList) :=
  ⟨by decide, by decide,
   abbrev_key_derivations_agree "Frederick".toList "Hussey".toList
     (by decide) (by decide)⟩

/-- C9: the name-abbreviation function is idempotent — applying
`normalize_name_for_lookup` twice equals applying it once, for every
input. -/
theorem normalize_name_idempotent (name : Chars) :
    normalize_name_for_lookup (normalize_name_for_lookup name) =
      normalize_name_for_lookup name := by
  cases hp : pySplit (pyStrip (name.map Char.toUpper)) with
  | nil =>
    apply normalize_idem_short
    rw [hp]
    decide
  | cons p0 ps =>
    cases ps with
    | nil =>
      apply normalize_idem_short
      rw [hp]
      simp
    | cons p1 rest => exact normalize_idem_long hp

/-- C8: the pre-export `drop_duplicates()` keeps exactly the rows with no
earlier row equal to them in every column: the output is the subsequence of
positions i such that every earlier row differs from row i somewhere, so
rows agreeing on some key fields but differing in any column are all
retained. -/
theorem dedup_keeps_first_occurrences (l : List Row) :
    drop_duplicates l =
      ((l.enum.filter fun p =>
        (l.take p.1).all fun q => decide (q ≠ p.2)).map Prod.snd) := by
  show dropDupAux [] l = _
  rw [dropDupAux_eq l []]
  congr 1

/-- C4: every record the line parser produces has a nonempty donor name, a
payment type from the {Check, Cash, Card, ACH} enumeration, and a payment
amount that is an exact two-decimal currency value (an integer number of
cents divided by 100). -/
theorem record_invariants (src line : Chars) (r : Row)
    (hr : r ∈ extract_rows_from_line src line) :
    r.fullName ≠ [] ∧ r.paymentType ∈ payTypes ∧
      ∃ n : ℕ, r.paymentAmount = (n : ℚ) / 100 := by
  simp only [extract_rows_from_line, List.mem_map] at hr
  obtain ⟨m, hm, rfl⟩ := hr
  have hm' : m ∈ finditerAux (pyNormalize line).length (pyNormalize line) := hm
  obtain ⟨s0, rest, hma⟩ := finditerAux_mem hm'
  obtain ⟨hn, hptm, ip, d1, d2, hamt, hipne, hipd, hd1, hd2⟩ := matchAt_sound hma
  refine ⟨hn, ?_, ?_⟩
  · show pyStrip m.payG ∈ payTypes
    rw [pyStrip_nospace (payTypes_tok hptm).2]
    exact hptm
  · refine ⟨digitsVal ip * 100 + digitsVal [d1, d2], ?_⟩
    show parseAmount (pyStrip m.amountG) = _
    rw [hamt, pyStrip_nospace (amount_nospace hipd hd1 hd2), parseAmount_shape hipd]

/-- C4 witness: the record parsed from the Boyd example line satisfies the
invariants. -/
theorem record_invariants_witness :
    ((extract_rows_from_line "GNEF.pdf".toList
          "5250031143286 JAMES ROBERT BOYD 2727 Check 100.00 4600055".toList).get
        ⟨0, by decide⟩).fullName ≠ [] ∧
      ((extract_rows_from_line "GNEF.pdf".toList
            "5250031143286 JAMES ROBERT BOYD 2727 Check 100.00 4600055".toList).get
          ⟨0, by decide⟩).paymentType ∈ payTypes ∧
      ∃ n : ℕ,
        ((extract_rows_from_line "GNEF.pdf".toList
              "5250031143286 JAMES ROBERT BOYD 2727 Check 100.00 4600055".toList).get
            ⟨0, by decide⟩).paymentAmount = (n : ℚ) / 100 :=
  record_invariants _ _ _ (List.get_mem _ _ _)

/-- C5: under a key-unique lookup table, enrichment never overwrites a
nonempty account number, and a record whose account number is empty gets
exactly the account number of the lookup entry matching its derived
abbreviation key (empty when no entry matches or the entry's cell is
NaN). -/
theorem enrichment_never_overwrites (lu : List LookupEntry) (df : List Row)
    (hu : uniqueKeys lu) :
    List.Forall₂ (fun r r2 =>
      (r.accountNumber ≠ [] → r2.accountNumber = r.accountNumber) ∧
        (r.accountNumber = [] → r2.accountNumber =
          (((lu.find? fun e =>
              e.abbrev_key == normalize_name_for_lookup r.fullName).bind
            LookupEntry.indAccountNumber).getD [])))
      df (apply_account_lookup df (some lu)) := by
  cases lu with
  | nil =>
    have happ : apply_account_lookup df (some []) = df := by
      rw [apply_some_eq]
      simp
    rw [happ]
    apply List.forall₂_same.mpr
    intro r _
    refine ⟨fun _ => rfl, fun hnil => ?_⟩
    rw [hnil]
    rfl
  | cons e es =>
    rw [apply_account_lookup_map hu (by simp)]
    rw [List.forall₂_map_right_iff]
    apply List.forall₂_same.mpr
    intro r _
    exact enrichRow_account r

/-- C5 witness: enrichment of the two concrete rows by the deduplicated
concrete lookup table never overwrites the prefilled account number. -/
theorem enrichment_never_overwrites_witness :
    uniqueKeys (drop_duplicates_by_key exLookup) ∧
      List.Forall₂ (fun r r2 =>
        (r.accountNumber ≠ [] → r2.accountNumber = r.accountNumber) ∧
          (r.accountNumber = [] → r2.accountNumber =
            ((((drop_duplicates_by_key exLookup).find? fun e =>
                e.abbrev_key == normalize_name_for_lookup r.fullName).bind
              LookupEntry.indAccountNumber).getD [])))
        [exRow, exRow2]
        (apply_account_lookup [exRow, exRow2]
          (some (drop_duplicates_by_key exLookup))) :=
  ⟨by decide,
   enrichment_never_overwrites (drop_duplicates_by_key exLookup)
     [exRow, exRow2] (by decide)⟩

/-- C6 counterexample: on the line "GN -3" the detector embedded from the
source returns the canonical label "GN3" (the `\s*` run plus the optional
separator accepts a space followed by a hyphen), while the claim's
single-separator token predicate does not hold of that line, so the claimed
equivalence fails in the right-to-left direction stated. -/
theorem gn_detector_single_sep_counterexample :
    detect_gn_label_on_page "GN -3".toList = some "GN3".toList ∧
      specGNTokenSingleSep "GN -3".toList = false := by
  decide

/-- C6 (amended): the detector returns a label exactly when the line
contains, case-insensitively at a word boundary, "GN" followed by a
whitespace run, then at most one hyphen-or-space separator, then a digit
1-7 at a word boundary; any returned label has the canonical form
"GN{digit}" with digit 1-7; and the GN1 default is injected only by the
caller at record construction, as the fallback of the detector's
absence. -/
theorem gn_detector_characterization (l : Chars) :
    ((detect_gn_label_on_page l).isSome = amendedGNContains l) ∧
      (∀ s, detect_gn_label_on_page l = some s →
        ∃ d, digit17 d = true ∧ s = ['G', 'N', d]) ∧
      (∀ src line r, r ∈ extract_rows_from_line src line →
        r.bookLabel =
          (detect_gn_label_on_page (pyNormalize line)).getD ['G', 'N', '1']) := by
  refine ⟨detect_isSome_amended l, ?_, ?_⟩
  · intro s hs
    exact gnSearch_shape false s hs
  · intro src line r hr
    exact bookLabel_from_detector hr

/-- C6 amended witness: concrete instances — the label "GN-4" inside a line
is detected and has the canonical shape, the record built from a line
carrying "GN-4" takes its bookLabel from the detector, and a line with no
GN token yields absence from the detector itself. -/
theorem gn_detector_characterization_witness :
    ((detect_gn_label_on_page "Totals for GN-4 appear".toList).isSome =
        amendedGNContains "Totals for GN-4 appear".toList) ∧
      (∃ d, digit17 d = true ∧ ("GN4".toList : Chars) = ['G', 'N', d]) ∧
      ((extract_rows_from_line "a.pdf".toList
            "5250031143286 JAMES ROBERT BOYD 2727 Check 100.00 4600055 GN-4".toList).get
          ⟨0, by decide⟩).bookLabel =
        (detect_gn_label_on_page (pyNormalize
            "5250031143286 JAMES ROBERT BOYD 2727 Check 100.00 4600055 GN-4".toList)).getD
          ['G', 'N', '1'] ∧
      detect_gn_label_on_page "no label on this line".toList = none :=
  ⟨(gn_detector_characterization "Totals for GN-4 appear".toList).1,
   (gn_detector_characterization "Totals for GN-4 appear".toList).2.1
     "GN4".toList (by decide),
   (gn_detector_characterization "Totals for GN-4 appear".toList).2.2 _ _ _
     (List.get_mem _ _ _),
   by decide⟩

/-- C7: label detection is line-scoped — the records parsed from line n are
a function of line n's content only, so two pages agreeing on line n
produce identical records from it, and a page's records are the
concatenation of independently computed per-line records. -/
theorem label_line_scoped (src : Chars) (A B : List Chars) (n : Nat)
    (h : A[n]? = B[n]?) :
    (A[n]?).map (extract_rows_from_line src) =
        (B[n]?).map (extract_rows_from_line src) ∧
      extract_rows_from_lines src A = (A.map (extract_rows_from_line src)).flatten ∧
      extract_rows_from_lines src B = (B.map (extract_rows_from_line src)).flatten :=
  ⟨by rw [h], extract_rows_from_lines_flatten src A,
   extract_rows_from_lines_flatten src B⟩

/-- C7 witness: two concrete pages agreeing on line 0 (a transaction line)
but differing on line 1 (one carries "GN-4") yield identical records from
line 0; a "GN-4" token on the transaction line itself sets bookLabel GN4,
while on the adjacent line it has no effect (bookLabel stays GN1). -/
theorem label_line_scoped_witness :
    ((["5250031143286 JAMES ROBERT BOYD 2727 Check 100.00 4600055".toList,
          "Totals GN-4".toList] : List Chars)[0]?).map
        (extract_rows_from_line "a.pdf".toList) =
      ((["5250031143286 JAMES ROBERT BOYD 2727 Check 100.00 4600055".toList,
          "no label here".toList] : List Chars)[0]?).map
        (extract_rows_from_line "a.pdf".toList) ∧
      ((extract_rows_from_line "a.pdf".toList
          "5250031143286 JAMES ROBERT BOYD 2727 Check 100.00 4600055 GN-4".toList).map
        Row.bookLabel = [['G', 'N', '4']]) ∧
      ((extract_rows_from_line "a.pdf".toList
          "5250031143286 JAMES ROBERT BOYD 2727 Check 100.00 4600055".toList).map
        Row.bookLabel = [['G', 'N', '1']]) :=
  ⟨(label_line_scoped "a.pdf".toList
      ["5250031143286 JAMES ROBERT BOYD 2727 Check 100.00 4600055".toList,
        "Totals GN-4".toList]
      ["5250031143286 JAMES ROBERT BOYD 2727 Check 100.00 4600055".toList,
        "no label here".toList] 0 (by decide)).1,
   by decide, by decide⟩

/-- C10: enrichment by the deduplicated lookup table returns exactly one
output row per input record in the same order — the length is preserved and
the record at each position keeps its identifying and transaction fields. -/
theorem enrichment_preserves_count_order (l : List LookupEntry) (df : List Row) :
    (apply_account_lookup df (some (drop_duplicates_by_key l))).length = df.length ∧
      ∀ (i : Nat) (h1 : i < df.length)
        (h2 : i < (apply_account_lookup df (some (drop_duplicates_by_key l))).length),
        ((apply_account_lookup df
              (some (drop_duplicates_by_key l))).get ⟨i, h2⟩).fullName =
            (df.get ⟨i, h1⟩).fullName ∧
          ((apply_account_lookup df
              (some (drop_duplicates_by_key l))).get ⟨i, h2⟩).seq =
            (df.get ⟨i, h1⟩).seq ∧
          ((apply_account_lookup df
              (some (drop_duplicates_by_key l))).get ⟨i, h2⟩).paymentAmount =
            (df.get ⟨i, h1⟩).paymentAmount ∧
          ((apply_account_lookup df
              (some (drop_duplicates_by_key l))).get ⟨i, h2⟩).paymentType =
            (df.get ⟨i, h1⟩).paymentType ∧
          ((apply_account_lookup df
              (some (drop_duplicates_by_key l))).get ⟨i, h2⟩).checkNumber =
            (df.get ⟨i, h1⟩).checkNumber ∧
          ((apply_account_lookup df
              (some (drop_duplicates_by_key l))).get ⟨i, h2⟩).bookLabel =
            (df.get ⟨i, h1⟩).bookLabel ∧
          ((apply_account_lookup df
              (some (drop_duplicates_by_key l))).get ⟨i, h2⟩).sourceFile =
            (df.get ⟨i, h1⟩).sourceFile := by
  have hu : uniqueKeys (drop_duplicates_by_key l) := drop_duplicates_by_key_unique l
  cases hdk : drop_duplicates_by_key l with
  | nil =>
    have happ : apply_account_lookup df (some []) = df := by
      rw [apply_some_eq]
      simp
    rw [happ]
    exact ⟨rfl, fun i h1 h2 => ⟨rfl, rfl, rfl, rfl, rfl, rfl, rfl⟩⟩
  | cons e es =>
    rw [hdk] at hu
    have hmap := @apply_account_lookup_map (e :: es) df hu (by simp)
    rw [hmap]
    constructor
    · exact List.length_map df (enrichRow (e :: es))
    · intro i h1 h2
      have hget : (df.map (enrichRow (e :: es))).get ⟨i, h2⟩ =
          enrichRow (e :: es) (df.get ⟨i, h1⟩) := by
        rw [List.get_eq_getElem, List.get_eq_getElem, List.getElem_map]
      rw [hget]
      obtain ⟨hfn, hsq, hpa, hpl, hpt, hcn, hbl, hpc, hsf⟩ :=
        @enrichRow_core (e :: es) (df.get ⟨i, h1⟩)
      exact ⟨hfn, hsq, hpa, hpt, hcn, hbl, hsf⟩

/-- C10 witness: enrichment of two concrete rows by the concrete lookup
table (which holds a duplicated key) preserves the row count, and the first
output row keeps the first input row's name. -/
theorem enrichment_preserves_count_order_witness :
    (apply_account_lookup [exRow, exRow2]
        (some (drop_duplicates_by_key exLookup))).length = [exRow, exRow2].length ∧
      ((apply_account_lookup [exRow, exRow2]
            (some (drop_duplicates_by_key exLookup))).get ⟨0, by decide⟩).fullName =
        (([exRow, exRow2] : List Row).get ⟨0, by decide⟩).fullName :=
  ⟨(enrichment_preserves_count_order exLookup [exRow, exRow2]).1,
   ((enrichment_preserves_count_order exLookup [exRow, exRow2]).2 0
     (by decide) (by decide)).1⟩

/-- C1: a whitespace-normalized line made of a 13-digit sequence number, a
name of whitespace-free tokens each containing a non-digit, a 1-10 digit
check number, a payment-type keyword, an amount with exactly two decimal
places and a trailing batch number, separated by single spaces, parses to
exactly one record whose sequence, name, check number, payment type and
payment amount are exactly those substrings; the pledge equals the payment,
the percentage is 100, and the bookLabel comes from the GN detector on the
same line, defaulting to GN1. -/
theorem wellformed_line_roundtrip (src seq ck pt ip bt : Chars) (d1 d2 : Char)
    (nts : List Chars)
    (h13 : seq.length = 13) (hsd : ∀ c ∈ seq, c.isDigit = true)
    (hnts : nts ≠ []) (hname : ∀ t ∈ nts, NameTok t)
    (hck : ck ≠ []) (hckd : ∀ c ∈ ck, c.isDigit = true) (hcklen : ck.length ≤ 10)
    (hpt : pt ∈ payTypes)
    (hip : ip ≠ []) (hipd : ∀ c ∈ ip, c.isDigit = true)
    (hd1 : d1.isDigit = true) (hd2 : d2.isDigit = true)
    (hbt : bt ≠ []) (hbtd : ∀ c ∈ bt, c.isDigit = true) :
    extract_rows_from_line src
        (joinTok (seq :: (nts ++ [ck, pt, ip ++ '.' :: [d1, d2], bt]))) =
      [{ accountNumber := [],
         fullName := joinTok nts,
         pledgeAmount := some (parseAmount (ip ++ '.' :: [d1, d2])),
         paymentAmount := parseAmount (ip ++ '.' :: [d1, d2]),
         paymentType := pt,
         checkNumber := ck,
         bookLabel := (detect_gn_label_on_page
             (joinTok (seq :: (nts ++ [ck, pt, ip ++ '.' :: [d1, d2], bt])))).getD
           ['G', 'N', '1'],
         percentage := some 100,
         sourceFile := src,
         seq := seq,
         acctFullName := [],
         acctAccountNumber := [] }] := by
  have hamtns : ∀ c ∈ ip ++ '.' :: [d1, d2], isPySpace c = false :=
    amount_nospace hipd hd1 hd2
  have htail := matchTail_construct hck hckd hcklen hpt hip hipd hd1 hd2 hbt hbtd
  have hmatch := matchAt_construct h13 hsd hnts hname htail
  have htokAll : ∀ t ∈ (seq :: (nts ++ [ck, pt, ip ++ '.' :: [d1, d2], bt])), Tok t := by
    intro t ht
    rcases List.mem_cons.mp ht with hh | hh
    · rw [hh]
      exact ⟨fun hnil => by rw [hnil] at h13; exact absurd h13 (by decide),
        fun c hc => isDigit_not_space (hsd c hc)⟩
    rcases List.mem_append.mp hh with hh2 | hh2
    · exact (hname t hh2).1
    rcases List.mem_cons.mp hh2 with hh3 | hh3
    · rw [hh3]
      exact ⟨hck, fun c hc => isDigit_not_space (hckd c hc)⟩
    rcases List.mem_cons.mp hh3 with hh4 | hh4
    · rw [hh4]
      exact payTypes_tok hpt
    rcases List.mem_cons.mp hh4 with hh5 | hh5
    · rw [hh5]
      exact ⟨by simp, hamtns⟩
    rcases List.mem_cons.mp hh5 with hh6 | hh6
    · rw [hh6]
      exact ⟨hbt, fun c hc => isDigit_not_space (hbtd c hc)⟩
    · exact absurd hh6 (List.not_mem_nil t)
  have hjoin : joinTok (seq :: (nts ++ [ck, pt, ip ++ '.' :: [d1, d2], bt])) =
      seq ++ ' ' :: (joinTok nts ++ ' ' ::
        (ck ++ ' ' :: (pt ++ ' ' :: ((ip ++ '.' :: [d1, d2]) ++ ' ' :: bt)))) := by
    rw [joinTok_cons (by simp), joinTok_append hnts (by simp)]
    rfl
  have hnorm : pyNormalize (joinTok (seq :: (nts ++ [ck, pt, ip ++ '.' :: [d1, d2], bt]))) =
      joinTok (seq :: (nts ++ [ck, pt, ip ++ '.' :: [d1, d2], bt])) :=
    pyNormalize_joinTok (by simp) htokAll
  have hfind : line_pattern_finditer
        (joinTok (seq :: (nts ++ [ck, pt, ip ++ '.' :: [d1, d2], bt]))) =
      [⟨seq, joinTok nts, ck, pt, ip ++ '.' :: [d1, d2], bt⟩] := by
    apply finditer_of_matchAt_nil
    · rw [hjoin]
      exact hmatch
    · exact joinTok_ne_nil (by simp) htokAll
  simp only [extract_rows_from_line]
  rw [hnorm, hfind]
  simp only [List.map_cons, List.map_nil]
  rw [pyStrip_joinTok hnts fun t ht => (hname t ht).1,
    pyStrip_nospace (l := seq) fun c hc => isDigit_not_space (hsd c hc),
    pyStrip_nospace (l := ck) fun c hc => isDigit_not_space (hckd c hc),
    pyStrip_nospace (l := pt) (payTypes_tok hpt).2,
    pyStrip_nospace (l := ip ++ '.' :: [d1, d2]) hamtns]
  rfl

/-- C1 witness: the Boyd example line of the spec parses to exactly the
claimed record (no GN token on the line, so bookLabel defaults to GN1). -/
theorem wellformed_line_roundtrip_witness :
    extract_rows_from_line "GNEF LB.pdf".toList
        "5250031143286 JAMES ROBERT BOYD 2727 Check 100.00 4600055".toList =
      [{ accountNumber := [],
         fullName := "JAMES ROBERT BOYD".toList,
         pledgeAmount := some (parseAmount ("100".toList ++ '.' :: ['0', '0'])),
         paymentAmount := parseAmount ("100".toList ++ '.' :: ['0', '0']),
         paymentType := "Check".toList,
         checkNumber := "2727".toList,
         bookLabel := "GN1".toList,
         percentage := some 100,
         sourceFile := "GNEF LB.pdf".toList,
         seq := "5250031143286".toList,
         acctFullName := [],
         acctAccountNumber := [] }] :=
  wellformed_line_roundtrip "GNEF LB.pdf".toList "5250031143286".toList
    "2727".toList "Check".toList "100".toList "4600055".toList '0' '0'
    ["JAMES".toList, "ROBERT".toList, "BOYD".toList]
    (by decide) (by decide) (by decide) (by decide) (by decide) (by decide)
    (by decide) (by decide) (by decide) (by decide) (by decide) (by decide)
    (by decide) (by decide)
